import Mathlib

/-!
Verification of the Ranvier URL-mapping engine (`lib/python/ranvier`): a shallow
embedding of `mapper.py`, `enumerator.py` and the request-entry fragment of
`context.py`, together with theorems about the claims of the specification.

Strings are modelled as `List Char`.  Python dictionaries are modelled as
association lists in insertion order; `%`-formatting, `urlparse.urlsplit`,
`urlparse.urlunsplit` and the regular expressions compiled by the mapper are
modelled by explicit executable functions, each documented at its definition.
-/

namespace Ranvier

/-- Strings of the embedding: Python `str` as a list of characters. -/
abbrev Str := List Char

/-- The apostrophe character (used in several error messages of the source). -/
def sq : Char := Char.ofNat 39

/-- Errors of the embedding.  `ranvier msg` models `RanvierError(msg)`;
`typeError` models a Python `TypeError` (e.g. iterating a bool, calling with a
wrong number of arguments, `%d`-formatting a non-integer); `keyError` models a
`KeyError` escaping from `template % params`. -/
inductive PyErr where
  | ranvier (msg : Str)
  | typeError
  | keyError
  | unmodelled
deriving DecidableEq, Repr

/-- Python values that can be passed to `UrlMapper.mapurl`: strings and
integers (`str`/`unicode` collapse to `str`, `int`/`long` to `int`), plain
dictionaries, and instances (modelled by their `__dict__`). -/
inductive PyVal where
  | str (s : Str)
  | int (n : Int)
  | dict (entries : List (Str × PyVal))
  | obj (entries : List (Str × PyVal))

/-- `isinstance(v, (str, unicode, int, long))`: the scalar test performed by
`UrlMapper.mapurl` on a single positional argument. -/
def PyVal.scalar : PyVal → Bool
  | .str _ => true
  | .int _ => true
  | .dict _ => false
  | .obj _ => false

/-- The attribute/entry source used by `mapurl` for a non-scalar single
positional argument: a dict is used as is, an instance contributes its
`__dict__`. -/
def PyVal.entries : PyVal → List (Str × PyVal)
  | .dict d => d
  | .obj d => d
  | .str _ => []
  | .int _ => []

/-- Association-list lookup (Python `d[k]` / `d.get(k)` on our dict model). -/
def alookup (k : Str) : List (Str × α) → Option α
  | [] => none
  | (k', v) :: rest => if k' = k then some v else alookup k rest

/-- Python `d[k] = v` on the insertion-ordered dict model: replace in place if
the key is present, else append. -/
def aset (k : Str) (v : α) : List (Str × α) → List (Str × α)
  | [] => [(k, v)]
  | (k', v') :: rest => if k' = k then (k, v) :: rest else (k', v') :: aset k v rest

/-- Python `'/'.join(xs)`. -/
def joinSlash : List Str → Str
  | [] => []
  | [s] => s
  | s :: ss => s ++ '/' :: joinSlash ss

/-- Python `s.split(sep)` for a one-character separator (never returns `[]`;
splitting the empty string yields `[[]]`, exactly like Python). -/
def splitC (sep : Char) : Str → List Str
  | [] => [[]]
  | c :: rest =>
    if c = sep then [] :: splitC sep rest
    else
      match splitC sep rest with
      | [] => [[c]]
      | s :: ss => (c :: s) :: ss

/-- Consume a literal prefix: `some rest` iff the input is `lit ++ rest`.  This
is the semantics of a metacharacter-free literal inside an anchored regular
expression (all literals our theorems instantiate are metacharacter-free). -/
def litConsume : Str → Str → Option Str
  | [], s => some s
  | _ :: _, [] => none
  | c :: cs, d :: ds => if c = d then litConsume cs ds else none

/-- Python `line.strip()` (whitespace at both ends). -/
def strip (s : Str) : Str :=
  ((s.dropWhile Char.isWhitespace).reverse.dropWhile Char.isWhitespace).reverse

/-- Decimal digit character, `digitCh d` for `d < 10`. -/
def digitCh : Nat → Char
  | 0 => '0' | 1 => '1' | 2 => '2' | 3 => '3' | 4 => '4'
  | 5 => '5' | 6 => '6' | 7 => '7' | 8 => '8' | _ => '9'

/-- Fuel-driven decimal rendering (most significant digit first). -/
def decRepAux : Nat → Nat → Str
  | 0, _ => []
  | fuel + 1, n =>
    if n < 10 then [digitCh n]
    else decRepAux fuel (n / 10) ++ [digitCh (n % 10)]

/-- Python `str(n)` / `'%d' % n` for a natural number. -/
def decRepr (n : Nat) : Str := decRepAux (n + 1) n

/-- Python `str(n)` / `'%d' % n` for an integer. -/
def intRepr (n : Int) : Str :=
  if n < 0 then '-' :: decRepr n.natAbs else decRepr n.toNat

/-- Numeric value of a digit character. -/
def digitVal (c : Char) : Nat := c.toNat - 48

/-- Python `int(s)` on a string of decimal digits (the only shape on which the
mapper ever calls `int`, since the capture class is `[0-9]+`). -/
def digitsVal (s : Str) : Nat := s.foldl (fun a c => 10 * a + digitVal c) 0

/-- Left-pad with zeros to the given width (semantics of the `0N` flag/width of
a `%` format). -/
def zeroPad (w : Nat) (s : Str) : Str := List.replicate (w - s.length) '0' ++ s

/-- Left-pad with spaces to the given width. -/
def spacePad (w : Nat) (s : Str) : Str := List.replicate (w - s.length) ' ' ++ s

/-- Right-pad with spaces to the given width (Python `'%-Ns' % s`). -/
def padRight (s : Str) (w : Nat) : Str := s ++ List.replicate (w - s.length) ' '

/-! ## Components (`enumerator.py`: `FixedComponent`, `VarComponent`, `OptParam`) -/

/-- A URI path component: `FixedComponent(name)` or `VarComponent(varname, format)`
(the stored format already has a leading `%` stripped by the constructor). -/
inductive Component where
  | fixed (name : Str)
  | var (varname : Str) (format : Option Str)
deriving DecidableEq, Repr

/-- `VarComponent.__init__` / `OptParam.__init__` format normalization:
`if format and format.startswith('%'): format = format[1:]`. -/
def stripPercent : Option Str → Option Str
  | none => none
  | some f => if f.head? = some '%' then some (f.drop 1) else some f

/-- `VarComponent(varname, format)`. -/
def mkVarComponent (varname : Str) (format : Option Str) : Component :=
  .var varname (stripPercent format)

/-- An `OptParam` object: an optional query-style parameter declaration. -/
structure OptParam where
  varname : Str
  format : Option Str
deriving DecidableEq, Repr

/-- `OptParam(varname, format)`. -/
def mkOptParam (varname : Str) (format : Option Str) : OptParam :=
  ⟨varname, stripPercent format⟩

/-- A dynamically-typed argument position of `Mapping.__init__`: the call sites
pass `None`, a bool, or a list of `OptParam` objects. -/
inductive Dyn where
  | noneD
  | boolD (b : Bool)
  | listD (l : List OptParam)
deriving DecidableEq, Repr

/-- Python truthiness of a `Dyn` value. -/
def Dyn.truthy : Dyn → Bool
  | .noneD => false
  | .boolD b => b
  | .listD l => !l.isEmpty

/-- Python truthiness of an optional format string (`if comp.format:`). -/
def fmtTruthy : Option Str → Bool
  | none => false
  | some f => !f.isEmpty

/-! ## `%`-format semantics

`Mapping.create_path_templates` builds a template whose variable tokens are
`%(name)FMT` (or `%(name)s` when the format is absent); `template % params`
then formats each parameter with the conversion `FMT`.  We model the
conversions that can occur: `s` and `d` with an optional zero flag and width.
Float conversions and `str()` of a dict/instance are outside the model and
yield `PyErr.unmodelled`; no theorem below touches them. -/

/-- A parsed `%` conversion: last character is the conversion type, preceded by
an optional `0` flag and a decimal width. -/
inductive FmtSpec where
  | sConv (width : Nat)
  | dConv (zero : Bool) (width : Nat)
  | fConv
  | bad
deriving DecidableEq, Repr

/-- Parse a conversion string such as `08d`, `d`, `s`, `5s`. -/
def parseFmt (f : Str) : FmtSpec :=
  match f.getLast? with
  | none => .bad
  | some conv =>
    let body := f.dropLast
    if body.all Char.isDigit then
      if conv = 's' then .sConv (digitsVal body)
      else if conv = 'd' then .dConv (body.head? = some '0') (digitsVal body)
      else if conv = 'f' then .fConv
      else .bad
    else .bad

/-- `'%FMT' % v` for one value, `FMT` a conversion string (never empty: the
template builder emits `s` when a component has no format). -/
def pyFormatConv (f : Str) (v : PyVal) : Except PyErr Str :=
  match parseFmt f with
  | .sConv w =>
    match v with
    | .str s => .ok (spacePad w s)
    | .int n => .ok (spacePad w (intRepr n))
    | _ => .error .unmodelled
  | .dConv zero w =>
    match v with
    | .int n =>
      if zero then
        if n < 0 then .ok ('-' :: zeroPad (w - 1) (decRepr n.natAbs))
        else .ok (zeroPad w (decRepr n.toNat))
      else .ok (spacePad w (intRepr n))
    | _ => .error .typeError
  | .fConv => .error .unmodelled
  | .bad => .error .unmodelled

/-- The conversion string the typed template uses for a variable component:
the component format when truthy, else `s`. -/
def convOf (format : Option Str) : Str :=
  if fmtTruthy format then format.getD [] else ['s']

/-- `template % params` for the typed template of `create_path_templates`:
each fixed component contributes its name, each variable component formats the
parameter of its name (a missing parameter is Python `KeyError`).  Faithful for
fixed names not containing a `%(` sequence, which holds throughout. -/
def substTyped (params : List (Str × PyVal)) : List Component → Except PyErr (List Str)
  | [] => .ok []
  | .fixed n :: rest => do
    let tl ← substTyped params rest
    .ok (n :: tl)
  | .var v f :: rest => do
    match alookup v params with
    | none => .error .keyError
    | some val => do
      let s ← pyFormatConv (convOf f) val
      let tl ← substTyped params rest
      .ok (s :: tl)

/-! ## `urlparse.urlunsplit` -/

/-- Python 2 `urlparse.urlunsplit((scheme, netloc, url, query, fragment))`. -/
def urlunsplit (scheme netloc url query fragment : Str) : Str :=
  let url := if netloc ≠ [] ∨ (url ≠ [] ∧ url.take 2 = ['/', '/']) then
      '/' :: '/' :: (netloc ++ url) else url
  let url := if scheme ≠ [] then scheme ++ ':' :: url else url
  let url := if query ≠ [] then url ++ '?' :: query else url
  if fragment ≠ [] then url ++ '#' :: fragment else url

/-! ## `Mapping` (`mapper.py`) -/

/-- The compiled mapping: the fields of `Mapping.__init__` (`self.prefix` and
`self.suffix` are named `pre`/`suf`).  `isterminal` is kept dynamically typed
because `UrlMapper.initialize` stores a list there (see `initializeM`). -/
structure Mapping where
  pre : Str × Str
  suf : Str × Str
  absolute : Bool
  components : List Component
  resid : Str
  isterminal : Dyn
  optparams : List (Str × OptParam)
  urltmpl : Str
  urltmplUntyped : Str
  positional : List Str
  vardict : List (Str × Option PyVal)
  formats : List (Str × Option Str)

/-- The typed template token of one component (`create_path_templates`):
`%(name)FMT`, `%(name)s`, or the fixed name. -/
def typedToken : Component → Str
  | .fixed n => n
  | .var v f => '%' :: '(' :: (v ++ ')' :: convOf f)

/-- The untyped template token of one component (format ignored). -/
def untypedToken : Component → Str
  | .fixed n => n
  | .var v _ => '%' :: '(' :: (v ++ ')' :: ['s'])

/-- `self.optparams = dict((x[0], OptParam(x)) for x in optparams or ())`.
The call sites pass `None`, a bool (via the argument swap in
`UrlMapper.initialize`), or a list of `OptParam` objects.  Any truthy value
raises `TypeError`: iterating `True` fails, and for a non-empty list the
subscription `x[0]` fails because `OptParam` objects are not subscriptable.
Falsy values produce the empty dict. -/
def processOptparams : Dyn → Except PyErr (List (Str × OptParam))
  | .noneD => .ok []
  | .boolD false => .ok []
  | .boolD true => .error .typeError
  | .listD [] => .ok []
  | .listD (_ :: _) => .error .typeError

/-- The variable-collecting loop of `Mapping.__init__`: builds `positional`,
`vardict` and `formats` in component order; a repeated variable name raises
`RanvierError("Variable name collision in URI path: '<name>'")`. -/
def buildVarsAux : List Component → List Str → List (Str × Option PyVal) →
    List (Str × Option Str) →
    Except PyErr (List Str × List (Str × Option PyVal) × List (Str × Option Str))
  | [], pos, vd, fm => .ok (pos, vd, fm)
  | .fixed _ :: rest, pos, vd, fm => buildVarsAux rest pos vd fm
  | .var v f :: rest, pos, vd, fm =>
    if (alookup v vd).isSome then
      .error (.ranvier ("Variable name collision in URI path: ".toList ++
        sq :: (v ++ [sq])))
    else buildVarsAux rest (pos ++ [v]) (vd ++ [(v, none)]) (fm ++ [(v, f)])

/-- `Mapping.__init__(resid, unparsed, isterminal, resobj, optparams)`; the
resource object is omitted (never used by the operations modelled here).
Field assignments, optional-parameter processing, template construction and
the variable loop happen in source order, so a truthy `optparams` raises
`TypeError` before any collision check runs. -/
def mappingInit (resid : Str) (unparsed : Str × Str × Bool × List Component × Str × Str)
    (isterminal : Dyn) (optparams : Dyn) : Except PyErr Mapping := do
  let (scheme, netloc, absolute, components, query, fragment) := unparsed
  let opts ← processOptparams optparams
  let urltmpl := joinSlash (components.map typedToken)
  let urltmplU := joinSlash (components.map untypedToken)
  let (pos, vd, fm) ← buildVarsAux components [] [] []
  .ok { pre := (scheme, netloc), suf := (query, fragment), absolute := absolute,
        components := components, resid := resid, isterminal := isterminal,
        optparams := opts, urltmpl := urltmpl, urltmplUntyped := urltmplU,
        positional := pos, vardict := vd, formats := fm }

/-- `Mapping.isvalid(cname)`: key of `vardict` or of `optparams`. -/
def Mapping.isvalid (m : Mapping) (cname : Str) : Bool :=
  (alookup cname m.vardict).isSome || (alookup cname m.optparams).isSome

/-- The tail of `Mapping._render` after template substitution: prepend the
root location (empty for absolute mappings), append a trailing slash when
`render_trailing and self.isterminal` and the path does not already end in
one, and reassemble with `urlparse.urlunsplit`. -/
def Mapping.renderWith (m : Mapping) (substituted : Str) (rootloc : Option Str)
    (render_trailing : Bool := true) : Str :=
  let first := if m.absolute then [] else rootloc.getD []
  let path := first ++ '/' :: substituted
  let path := if render_trailing && m.isterminal.truthy &&
      !(path.getLast? = some '/') then path ++ ['/'] else path
  urlunsplit m.pre.1 m.pre.2 path m.suf.1 m.suf.2

/-- `Mapping.render(params, rootloc)`: substitute the typed template and
finish with `_render`. -/
def Mapping.render (m : Mapping) (params : List (Str × PyVal)) (rootloc : Option Str) :
    Except PyErr Str := do
  let segs ← substTyped params m.components
  .ok (m.renderWith (joinSlash segs) rootloc)

/-- The placeholder a variable renders to in `Mapping.render_pattern`:
`(name%format)` when the format is truthy, else `(name)`. -/
def patSeg : Component → Str
  | .fixed n => n
  | .var v f =>
    if fmtTruthy f then '(' :: (v ++ '%' :: f.getD []) ++ [')']
    else '(' :: (v ++ [')'])

/-- `Mapping.render_pattern(rootloc)`: substitute each variable of the untyped
template by its own placeholder (an `s`-conversion of a string is the string
itself, so the substitution is the join of the placeholder tokens) and finish
with `_render`. -/
def Mapping.renderPattern (m : Mapping) (rootloc : Option Str) : Str :=
  m.renderWith (joinSlash (m.components.map patSeg)) rootloc

/-! ## `urlparse.urlsplit` -/

/-- Characters allowed in a URL scheme. -/
def schemeChar (c : Char) : Bool :=
  c.isAlpha || c.isDigit || c = '+' || c = '-' || c = '.'

/-- `s.split(sep, 1)` when `sep` occurs, else `(s, '')`; Python applies the
split only when `sep in url`, which coincides with this. -/
def splitFirst (sep : Char) (s : Str) : Str × Str :=
  (s.takeWhile (· ≠ sep), (s.dropWhile (· ≠ sep)).drop 1)

/-- `urlparse._splitnetloc` applied to the part after `//`: the network
location extends to the first of `/`, `?`, `#`. -/
def splitnetloc (s : Str) : Str × Str :=
  (s.takeWhile (fun c => !(c = '/' || c = '?' || c = '#')),
   s.dropWhile (fun c => !(c = '/' || c = '?' || c = '#')))

/-- Python 2 `urlparse.urlsplit(url)`: strip `scheme:` when the text before
the first `:` is a non-empty run of scheme characters, strip `//netloc`, then
split off the fragment at the first `#` and the query at the first `?` (in
that order). -/
def urlsplit (url : Str) : Str × Str × Str × Str × Str :=
  let p :=
    match url.findIdx? (· = ':') with
    | some i =>
      if 0 < i && (url.take i).all schemeChar then
        ((url.take i).map Char.toLower, url.drop (i + 1))
      else ([], url)
    | none => ([], url)
  let scheme := p.1
  let url := p.2
  let q := if url.take 2 = ['/', '/'] then splitnetloc (url.drop 2) else ([], url)
  let netloc := q.1
  let url := q.2
  let r := splitFirst '#' url
  let url := r.1
  let fragment := r.2
  let t := splitFirst '?' url
  (scheme, netloc, t.1, t.2, fragment)

/-! ## `Mapping.render_regexp_matcher` + `re.match` (`UrlMapper.match`)

`render_regexp_matcher` substitutes each variable of the untyped template by a
named group whose character class is derived from the format (`d` → `[0-9]+`,
`f` → `[0-9.+-]+`, absent or `s` → `[^/]+`; any other format leaves the
parameter out of the substitution dict, so `template % params` raises
`KeyError`), passes the result through `_render` (root-location prefix,
trailing slash when `isterminal` is truthy) and appends `?` after a trailing
slash, or `/?` otherwise.  `UrlMapper.match` anchors this with `^...$` and
matches it against the path part of the URL.

`matchComps` below interprets that regular expression structurally: every
class excludes `/` and after each group the pattern continues with a literal
`/` or the optional trailing slash, so greedy matching per segment is exact.
Literal parts (root location, fixed names) are interpreted literally, which is
exact for metacharacter-free names — all theorems below assume such names.
Mappings with a non-empty scheme/netloc/query/fragment embed those parts (and
their metacharacters) into the pattern; they are out of the model, as is the
corner of a non-empty component list ending in an empty fixed name (where the
optional slash merges with the template's own trailing slash). -/

/-- The capture class of a variable component, per its format. -/
def classOf (format : Option Str) : Option (Char → Bool) :=
  match format with
  | none => some (fun c => c ≠ '/')
  | some f =>
    if f.getLast? = some 's' then some (fun c => c ≠ '/')
    else if f.getLast? = some 'd' then some Char.isDigit
    else if f.getLast? = some 'f' then
      some (fun c => c.isDigit || c = '.' || c = '+' || c = '-')
    else none

/-- Structural interpretation of `/tok1/tok2/.../tokN` followed by  an optional
trailing slash: each component is preceded by a literal `/`; a variable
captures a non-empty maximal run of its class.  Returns the captures in
component order. -/
def matchComps : List Component → Str → Except PyErr (Option (List (Str × Str)))
  | [], s => .ok (if s = [] ∨ s = ['/'] then some [] else none)
  | _ :: _, [] => .ok none
  | c :: cs, ch :: s1 =>
    if ch = '/' then
      match c with
      | .fixed n =>
        match litConsume n s1 with
        | none => .ok none
        | some s2 => matchComps cs s2
      | .var v f =>
        match classOf f with
        | none => .error .keyError
        | some cls =>
          let tok := s1.takeWhile cls
          let s2 := s1.dropWhile cls
          if tok = [] then .ok none
          else do
            let r ← matchComps cs s2
            .ok (r.map (fun caps => (v, tok) :: caps))
    else .ok none

/-- Whether every variable component of the mapping has a modelled capture
class (otherwise the regexp construction itself raises `KeyError`). -/
def compsClassed (comps : List Component) : Bool :=
  comps.all (fun c => match c with | .fixed _ => true | .var _ f => (classOf f).isSome)

/-- `re.match('^' + m.render_regexp_matcher(rootloc) + '$', path)`, returning
the named groups in order.  See the section comment for the modelled scope. -/
def Mapping.matchRegexp (m : Mapping) (rootloc : Option Str) (path : Str) :
    Except PyErr (Option (List (Str × Str))) :=
  if !compsClassed m.components then .error .keyError
  else if m.pre ≠ (([] : Str), ([] : Str)) ∨ m.suf ≠ (([] : Str), ([] : Str)) then
    .error .unmodelled
  else if m.components.getLast? = some (.fixed []) then .error .unmodelled
  else
    let first := if m.absolute then [] else rootloc.getD []
    match litConsume first path with
    | none => .ok none
    | some s => matchComps m.components s

/-- A value in the result dict of `UrlMapper.match`: the captured string, or
its coercion by `int`/`float` per the declared format.  `float` values are
kept symbolic as the raw captured text. -/
inductive Matched where
  | str (s : Str)
  | intM (n : Int)
  | floatRaw (s : Str)
deriving DecidableEq, Repr

/-- The result coercion of `UrlMapper.match`: `format = mapping.formats.get(name)`,
then `int(value)` when the format is truthy and ends in `d`, `float(value)`
when it ends in `f`, else the string itself. -/
def coerceMatch (format : Option (Option Str)) (value : Str) : Matched :=
  match format with
  | some (some f) =>
    if fmtTruthy (some f) then
      if f.getLast? = some 'd' then .intM (digitsVal value)
      else if f.getLast? = some 'f' then .floatRaw value
      else .str value
    else .str value
  | _ => .str value

/-- `UrlMapper.match(resid, url)` for a resolved mapping: split the URL, match
the path against the compiled pattern, and on success coerce each captured
value per its variable's format.  `.ok none` is the "no match" result. -/
def matchUrl (m : Mapping) (rootloc : Option Str) (url : Str) :
    Except PyErr (Option (List (Str × Matched))) := do
  let (_, _, path, _, _) := urlsplit url
  let caps? ← m.matchRegexp rootloc path
  match caps? with
  | none => .ok none
  | some caps =>
    .ok (some (caps.map (fun p => (p.1, coerceMatch (alookup p.1 m.formats) p.2))))

/-! ## `UrlMapper.mapurl` -/

/-- `', '.join("'%s'" % x for x in xs)`. -/
def quoteJoin : List Str → Str
  | [] => []
  | [x] => sq :: (x ++ [sq])
  | x :: xs => sq :: (x ++ sq :: ',' :: ' ' :: quoteJoin xs)

/-- The message of the too-many-positional-arguments error. -/
def tooManyMsg (resid : Str) (nbpos : Nat) : Str :=
  "Error: Resource ".toList ++ sq :: (resid ++ sq :: " takes at most ".toList) ++
    sq :: (decRepr nbpos ++ sq :: " arguments.".toList)

/-- The filling of missing parameters from the dict/instance given as a single
non-scalar positional argument (runs before keyword overlay; only `None`
slots are filled, and absent keys are skipped). -/
def fillFromDict (dicmissing : List (Str × PyVal)) (params : List (Str × Option PyVal)) :
    List (Str × Option PyVal) :=
  params.map (fun p =>
    match p.2 with
    | some v => (p.1, some v)
    | none =>
      match alookup p.1 dicmissing with
      | some v => (p.1, some v)
      | none => (p.1, none))

/-- The keyword-overlay loop of `mapurl`: each provided name must be a
positional variable or declared optional parameter, and its value fills the
slot (or adds a new entry for optional parameters). -/
def applyKwds (m : Mapping) : List (Str × PyVal) → List (Str × Option PyVal) →
    Except PyErr (List (Str × Option PyVal))
  | [], params => .ok params
  | (cname, cvalue) :: rest, params =>
    if m.isvalid cname then applyKwds m rest (aset cname (some cvalue) params)
    else
      .error (.ranvier ("Error: ".toList ++ sq ::
        (cname ++ sq :: " is not a valid component key for mapping the ".toList) ++
        sq :: (m.resid ++ sq :: (" resource.".toList ++ [sq]))))

/-- `for posname, posarg in zip(mapping.positional, args)`: fill keyword slots
left to right, rejecting a name already given as a keyword. -/
def zipPosArgs (resid : Str) : List Str → List PyVal → List (Str × PyVal) →
    Except PyErr (List (Str × PyVal))
  | _, [], kwds => .ok kwds
  | [], _ :: _, kwds => .ok kwds
  | posname :: ps, posarg :: rest, kwds =>
    if (alookup posname kwds).isSome then
      .error (.ranvier ("Error: Creating URL for ".toList ++ sq ::
        (resid ++ sq :: ", got multiple values for component ".toList) ++
        sq :: (posname ++ sq :: ['.'])))
    else zipPosArgs resid ps rest (aset posname posarg kwds)

/-- The common tail of `mapurl` after the positional/source-object dispatch:
copy the defaults (`vardict`), fill from the source object if any, overlay
keywords, fail if any positional variable is still `None` (listing the missing
names), then render. -/
def mapurlFrom (m : Mapping) (dicmissing : Option (List (Str × PyVal)))
    (kwds : List (Str × PyVal)) (rootloc : Option Str) : Except PyErr Str := do
  let params := m.vardict
  let params :=
    match dicmissing with
    | some dm => fillFromDict dm params
    | none => params
  let params ← applyKwds m kwds params
  let missing := params.filterMap (fun p => if p.2.isNone then some p.1 else none)
  if missing ≠ [] then
    .error (.ranvier ("Error: Missing values attempting to map resource ".toList ++
      sq :: (m.resid ++ sq :: ':' :: ' ' :: quoteJoin missing)))
  else
    m.render (params.filterMap (fun p => p.2.map (fun v => (p.1, v)))) rootloc

/-- The positional-arguments branch of `mapurl`: at most `len(positional)`
arguments, merged into the keywords left to right. -/
def mapurlPositional (m : Mapping) (args : List PyVal) (kwds : List (Str × PyVal))
    (rootloc : Option Str) : Except PyErr Str :=
  if args.length > m.positional.length then
    .error (.ranvier (tooManyMsg m.resid m.positional.length))
  else do
    let kwds ← zipPosArgs m.resid m.positional args kwds
    mapurlFrom m none kwds rootloc

/-- `UrlMapper.mapurl` for a resolved mapping: a single positional argument
that is not a `str`/`unicode`/`int`/`long` acts as a source of missing values
(a dict directly, an instance via its `__dict__`); otherwise the positional
arguments fill the positional variables left to right. -/
def mapurl (m : Mapping) (args : List PyVal) (kwds : List (Str × PyVal))
    (rootloc : Option Str) : Except PyErr Str :=
  match args with
  | [a] =>
    if a.scalar then mapurlPositional m [a] kwds rootloc
    else mapurlFrom m (some a.entries) kwds rootloc
  | other => mapurlPositional m other kwds rootloc

/-! ## The enumerator (`enumerator.py`)

A resource of the tree is modelled by its resource-id (the value
`getresid_any` computes for it, explicit or derived from the type name)
together with the ordered sequence of visitor calls its `enum_targets` makes.
The `EnumVisitor` state collects the leaf declaration and the optional
parameters; branches are walked in call order by `visit`. -/

mutual
inductive ResTree where
  | node (resid : Str) (calls : List EnumCall)
inductive EnumCall where
  | declareTarget (varname : Option Str) (format : Option Str)
  | declareOptparam (varname : Str) (format : Option Str)
  | branchAnon (t : ResTree)
  | branchStatic (component : Str) (t : ResTree)
  | branchVar (varname : Str) (format : Option Str) (t : ResTree)
end

/-- Python truthiness of an optional string (`not varname` distinguishes both
`None` and the empty string). -/
def strTruthy : Option Str → Bool
  | none => false
  | some s => !s.isEmpty

/-- The visitor state relevant to path accumulation: `self.leaf` (with its
optional trailing `VarComponent`) and `self.optparams`. -/
structure EnumVisitor where
  leaf : Option (Option Component)
  optparams : List OptParam

/-- `EnumVisitor.declare_target(varname, format)`: a second leaf declaration
and a format without a variable are construction errors; otherwise record the
leaf, with a trailing `VarComponent` when a variable name is given (note that
an explicit empty-string variable name is not `None`, so it yields a
component). -/
def declareTarget (v : EnumVisitor) (varname format : Option Str) :
    Except PyErr EnumVisitor :=
  if v.leaf.isSome then
    .error (.ranvier "Error: Resource is declared twice as a leaf.".toList)
  else if strTruthy format && !strTruthy varname then
    .error (.ranvier "Error: You cannot declare a format without a variable.".toList)
  else
    match varname with
    | none => .ok { v with leaf := some none }
    | some vn => .ok { v with leaf := some (some (mkVarComponent vn format)) }

/-- Run a resource's `enum_targets` declarations against a fresh visitor.
Branch declarations only append to the branch list (walked separately by
`visit`); optional parameters are collected in order. -/
def runCalls : List EnumCall → EnumVisitor → Except PyErr EnumVisitor
  | [], v => .ok v
  | c :: cs, v => do
    let v' ←
      match c with
      | .declareTarget vn f => declareTarget v vn f
      | .declareOptparam vn f => .ok { v with optparams := v.optparams ++ [mkOptParam vn f] }
      | .branchAnon _ => .ok v
      | .branchStatic _ _ => .ok v
      | .branchVar _ _ _ => .ok v
    runCalls cs v'

/-- Whether a visitor call declares a branch. -/
def isBranchCall : EnumCall → Bool
  | .branchAnon _ => true
  | .branchStatic _ _ => true
  | .branchVar _ _ _ => true
  | _ => false

/-- One accumulated path of the enumerator, in the order of the appended tuple
`(leafres, leaf_components, new_optparams, isterminal)` (the resource
collapsed to its resource-id).  NOTE: despite its name, `isterminal` is
`bool(branches)` — true exactly when the leaf node has further branches. -/
structure PathDescr where
  resid : Str
  components : List Component
  optparams : List OptParam
  isterminal : Bool

mutual
/-- `Enumerator.visit(resource, components, optparams, level)`: run the
declarations, append the leaf path (components extended by the leaf's own
trailing component, optional parameters extended by the node's declarations,
`isterminal := bool(branches)`), then recurse into every declared branch in
order. -/
def visit (t : ResTree) (components : List Component) (optparams : List OptParam) :
    Except PyErr (List PathDescr) :=
  match t with
  | .node resid calls => do
    let v ← runCalls calls ⟨none, []⟩
    let newOptparams := optparams ++ v.optparams
    let leafPaths :=
      match v.leaf with
      | none => []
      | some leafcomp =>
        [⟨resid, components ++ leafcomp.toList, newOptparams, calls.any isBranchCall⟩]
    let rest ← visitList calls components newOptparams
    .ok (leafPaths ++ rest)

/-- The branch loop of `visit`: anonymous branches contribute no component, a
static branch a `FixedComponent`, a variable branch a `VarComponent`. -/
def visitList (calls : List EnumCall) (components : List Component)
    (optparams : List OptParam) : Except PyErr (List PathDescr) :=
  match calls with
  | [] => .ok []
  | c :: cs => do
    let here ←
      match c with
      | .branchAnon t => visit t components optparams
      | .branchStatic name t => visit t (components ++ [.fixed name]) optparams
      | .branchVar vn f t => visit t (components ++ [mkVarComponent vn f]) optparams
      | _ => .ok []
    let rest ← visitList cs components optparams
    .ok (here ++ rest)
end

/-! ## `UrlMapper` table operations -/

/-- The mapper state: the configured root location and the resource-id →
`Mapping` dictionary (insertion-ordered). -/
structure UrlMapperS where
  rootloc : Option Str
  mappings : List (Str × Mapping)

/-- `UrlMapper._add_mapping`: reject a duplicate resource-id with a message
quoting the existing and the new mapping's rendered patterns. -/
def addMapping (u : UrlMapperS) (m : Mapping) : Except PyErr UrlMapperS :=
  match alookup m.resid u.mappings with
  | some existing =>
    .error (.ranvier (
      ("Error: Duplicate resource id ".toList ++ sq :: (m.resid ++ [sq, ':'])) ++
      '\n' :: ("  Existing mapping: ".toList ++ existing.renderPattern u.rootloc) ++
      '\n' :: ("  New mapping     : ".toList ++ m.renderPattern u.rootloc)))
  | none => .ok { u with mappings := u.mappings ++ [(m.resid, m)] }

/-- `UrlMapper.initialize(root_resource)`: enumerate the tree and register one
mapping per accumulated path.  The `for` loop unpacks each tuple as
`(resource, components, isterminal, optparams)`, but `visit` appended
`(resource, components, optparams, isterminal)`: the value passed below as the
`isterminal` argument of `Mapping` is therefore the path's optional-parameter
list, and the value passed as `optparams` is the terminal bool. -/
def initializeM (u : UrlMapperS) (root : ResTree) : Except PyErr UrlMapperS := do
  let paths ← visit root [] []
  paths.foldlM (fun u p => do
    let m ← mappingInit p.resid ([], [], false, p.components, [], [])
      (.listD p.optparams) (.boolD p.isterminal)
    addMapping u m) u

/-! ## `urlpattern_to_components` -/

/-- The name part of the `compre` pattern: `[a-z][a-z_]*`. -/
def varnameOk (s : Str) : Bool :=
  match s with
  | [] => false
  | c :: rest => c.isLower && rest.all (fun d => d.isLower || d = '_')

/-- The format part of the `compre` pattern: `[a-z0-9-]+`. -/
def varfmtOk (s : Str) : Bool :=
  !s.isEmpty && s.all (fun c => c.isLower || c.isDigit || c = '-')

/-- `compre.match(comp)`: `^\(([a-z][a-z_]*)(?:%([a-z0-9-]+))?\)$`. -/
def compreM (comp : Str) : Option (Str × Option Str) :=
  match comp with
  | '(' :: rest =>
    if rest.getLast? = some ')' then
      let inner := rest.dropLast
      let nm := inner.takeWhile (· ≠ '%')
      match inner.dropWhile (· ≠ '%') with
      | [] => if varnameOk nm then some (nm, none) else none
      | '%' :: f => if varnameOk nm && varfmtOk f then some (nm, some f) else none
      | _ => none
    else none
  | _ => none

/-- The per-component body of the loop in `urlpattern_to_components`: a
`compre` match makes a `VarComponent`; otherwise stray parentheses are an
error and anything else is a `FixedComponent`. -/
def parseComp (urlpattern comp : Str) : Except PyErr Component :=
  match compreM comp with
  | some (vn, vf) => .ok (mkVarComponent vn vf)
  | none =>
    if comp.contains ')' || comp.contains '(' then
      .error (.ranvier ("Error: Invalid component in static mapping ".toList ++
        sq :: (urlpattern ++ [sq, '.'])))
    else .ok (Component.fixed comp)

/-- `urlpattern_to_components(urlpattern)`: split the URL, decide
absoluteness, strip a leading slash, record and strip a trailing slash as the
terminal flag, and parse each `/`-separated component as a variable (via
`compre`) or a fixed component (rejecting stray parentheses). -/
def urlpatternToComponents (urlpattern : Str) :
    Except PyErr ((Str × Str × Bool × List Component × Str × Str) × Bool) := do
  let (scheme, netloc, path, query, fragment) := urlsplit urlpattern
  let absolute := !scheme.isEmpty || !netloc.isEmpty || path.head? = some '/'
  let path := if path.head? = some '/' then path.drop 1 else path
  let isterminal := path.getLast? = some '/'
  let path := if isterminal then path.dropLast else path
  let comps ← (splitC '/' path).mapM (parseComp urlpattern)
  .ok ((scheme, netloc, absolute, comps, query, fragment), isterminal)

/-- `UrlMapper.add_static(resid, urlpattern)`. -/
def addStatic (u : UrlMapperS) (resid : Str) (urlpattern : Str) :
    Except PyErr UrlMapperS := do
  let (unparsed, isterminal) ← urlpatternToComponents urlpattern
  let m ← mappingInit resid unparsed (.boolD isterminal) .noneD
  addMapping u m

/-- `UrlMapper.add_alias(new_resid, existing_resid)`: a shallow copy of an
existing mapping under a new id. -/
def addAlias (u : UrlMapperS) (newResid existingResid : Str) :
    Except PyErr UrlMapperS :=
  match alookup existingResid u.mappings with
  | none =>
    .error (.ranvier ("Error: Target mapping ".toList ++ sq ::
      (existingResid ++ sq :: " must exist for alias ".toList) ++
      sq :: (newResid ++ [sq, '.'])))
  | some m => addMapping u { m with resid := newResid }

/-- `UrlMapper._get_mapping` for a string resource-id. -/
def getMapping (u : UrlMapperS) (resid : Str) : Except PyErr Mapping :=
  match alookup resid u.mappings with
  | none =>
    .error (.ranvier ("Error: invalid resource-id ".toList ++ sq :: (resid ++ [sq, '.'])))
  | some m => .ok m

/-- `UrlMapper.mapurl_pattern(resid)`. -/
def mapurlPattern (u : UrlMapperS) (resid : Str) : Except PyErr Str := do
  let m ← getMapping u resid
  .ok (m.renderPattern u.rootloc)

/-- `UrlMapper.mapurl(resid, *args, **kwds)` at the table level. -/
def mapurlU (u : UrlMapperS) (resid : Str) (args : List PyVal)
    (kwds : List (Str × PyVal)) : Except PyErr Str := do
  let m ← getMapping u resid
  mapurl m args kwds u.rootloc

/-- `UrlMapper.match(resid, url)` at the table level. -/
def matchUrlU (u : UrlMapperS) (resid : Str) (url : Str) :
    Except PyErr (Option (List (Str × Matched))) := do
  let m ← getMapping u resid
  matchUrl m u.rootloc url

/-! ## Serialization (`UrlMapper.render` / `UrlMapper.load`) -/

/-- Lexicographic comparison of strings by character code (Python `cmp` on
`str`, as used by `list.sort(key=...)`). -/
def strLe : Str → Str → Bool
  | [], _ => true
  | _ :: _, [] => false
  | c :: cs, d :: ds => if c = d then strLe cs ds else decide (c < d)

/-- `UrlMapper.render(sort_by_url)`: one line per mapping, sorted by URL
template or by resource-id, each line `resid : pattern` with the id padded to
the longest id. -/
def renderLines (u : UrlMapperS) (sortByUrl : Bool := true) : List Str :=
  let ms := u.mappings.map Prod.snd
  let key : Mapping → Str := fun m => if sortByUrl then m.urltmpl else m.resid
  let sorted := ms.mergeSort (fun a b => strLe (key a) (key b))
  let maxidlen := (ms.map (fun m => m.resid.length)).foldr max 0
  sorted.map (fun m =>
    padRight m.resid maxidlen ++ ' ' :: ':' :: ' ' :: m.renderPattern u.rootloc)

/-- `inpat_re.match(line.strip())` with `inpat_re = ([^:\s]+)\s*:\s*(.*)\s*$`:
the resource-id is the maximal leading run without `:` or whitespace, then
optional whitespace, a colon, optional whitespace, and the pattern is the rest
(the stripped line has no trailing whitespace, so the final `\s*` is empty). -/
def parseLine (line : Str) : Option (Str × Str) :=
  let l := strip line
  let resid := l.takeWhile (fun c => !(c = ':' || c.isWhitespace))
  if resid.isEmpty then none
  else
    match (l.drop resid.length).dropWhile Char.isWhitespace with
    | ':' :: r => some (resid, r.dropWhile Char.isWhitespace)
    | _ => none

/-- The per-line body of the loop in `UrlMapper.load`: skip empty lines,
parse `resid : urlpattern`, and register a static-style mapping. -/
def loadStep (u : UrlMapperS) (line : Str) : Except PyErr UrlMapperS :=
  if line.isEmpty then .ok u
  else
    match parseLine line with
    | none =>
      .error (.ranvier ("Warning: Error parsing line ".toList ++ sq ::
        (line ++ sq :: " on load.".toList)))
    | some (resid, urlpattern) => do
      let (unparsed, isterminal) ← urlpatternToComponents urlpattern
      let m ← mappingInit resid unparsed (.boolD isterminal) .noneD
      addMapping u m

/-- `UrlMapper.load(lines)`: a fresh mapper (no root location), each non-empty
line parsed into `resid : urlpattern` and registered as a static-style
mapping. -/
def load (lines : List Str) : Except PyErr UrlMapperS :=
  lines.foldlM loadStep ⟨none, []⟩

/-! ## `handle_request` entry (`mapper.py` + `context.py`) -/

/-- `PathLocator`: cursor over the segments of one request path. -/
structure PathLocator where
  rootloc : Option Str
  path : List Str
  index : Nat
  trailing : Bool
deriving DecidableEq, Repr

/-- `PathLocator.from_uri(uri, rootloc)`: split on `/`, discard empty
segments, record whether the original ended in `/`. -/
def PathLocator.fromUri (uri : Str) (rootloc : Option Str) : PathLocator :=
  { rootloc := rootloc,
    path := (splitC '/' uri).filter (fun x => !x.isEmpty),
    index := 0,
    trailing := uri.getLast? = some '/' }

/-- The fields `HandlerContext.__init__` sets. -/
structure HandlerContext where
  locator : PathLocator
  args : List (Str × PyVal)

/-- The constructor `context.py` actually defines:
`HandlerContext.__init__(self, uri, args, rootloc=None)`. -/
def handlerContextInit3 (uri : Str) (args : List (Str × PyVal))
    (rootloc : Option Str) : HandlerContext :=
  { locator := PathLocator.fromUri uri rootloc, args := args }

/-- The call `handle_request` makes: `HandlerContext(method, uri, args,
self.rootloc)` — four positional arguments against a three-parameter
constructor, so Python raises `TypeError` before any field is set. -/
def handlerContextInit4 (_method _uri : Str) (_args : List (Str × PyVal))
    (_rootloc : Option Str) : Except PyErr HandlerContext :=
  .error .typeError

/-- The first iteration of the `handle_request` loop up to the construction of
the handling context (the dispatch through `Resource.delegate` that follows is
beyond this model): when a root location is configured, a URI that does not
start with it raises `RanvierError`, otherwise the prefix is stripped before
the context (and its path locator) is constructed. -/
def handleRequestStart (u : UrlMapperS) (method uri : Str)
    (args : List (Str × PyVal)) : Except PyErr HandlerContext := do
  let uri ←
    match u.rootloc with
    | none => .ok uri
    | some r =>
      if r.isPrefixOf uri then .ok (uri.drop r.length)
      else
        .error (.ranvier ("Error: Incorrect root location ".toList ++ sq ::
          (r ++ sq :: " for requested URI ".toList) ++ sq :: (uri ++ [sq, '.'])))
  handlerContextInit4 method uri args u.rootloc

/-! ## Infrastructure lemmas -/

theorem digitCh_isDigit (d : Nat) (h : d < 10) : (digitCh d).isDigit := by
  interval_cases d <;> decide

theorem digitVal_digitCh (d : Nat) (h : d < 10) : digitVal (digitCh d) = d := by
  interval_cases d <;> decide

theorem digitsVal_append_single (s : Str) (c : Char) :
    digitsVal (s ++ [c]) = 10 * digitsVal s + digitVal c := by
  simp [digitsVal, List.foldl_append]

theorem decRepAux_spec (fuel : Nat) :
    ∀ n, n < fuel → digitsVal (decRepAux fuel n) = n ∧ decRepAux fuel n ≠ [] ∧
      ∀ c ∈ decRepAux fuel n, c.isDigit := by
  induction fuel with
  | zero => intro n h; omega
  | succ fuel ih =>
    intro n h
    by_cases hlt : n < 10
    · simp only [decRepAux, if_pos hlt]
      refine ⟨?_, by simp, ?_⟩
      · simp [digitsVal, digitVal_digitCh n hlt]
      · intro c hc
        simp only [List.mem_singleton] at hc
        subst hc; exact digitCh_isDigit n hlt
    · have hdiv : n / 10 < fuel := by
        have h1 : n / 10 < n := Nat.div_lt_self (by omega) (by omega)
        omega
      obtain ⟨hv, hne, hall⟩ := ih (n / 10) hdiv
      simp only [decRepAux, if_neg hlt]
      refine ⟨?_, by simp, ?_⟩
      · rw [digitsVal_append_single, hv, digitVal_digitCh _ (Nat.mod_lt _ (by omega))]
        omega
      · intro c hc
        rcases List.mem_append.mp hc with h1 | h1
        · exact hall c h1
        · simp only [List.mem_singleton] at h1
          subst h1; exact digitCh_isDigit _ (Nat.mod_lt _ (by omega))

theorem decRepr_val (n : Nat) : digitsVal (decRepr n) = n :=
  (decRepAux_spec (n + 1) n (by omega)).1

theorem decRepr_ne_nil (n : Nat) : decRepr n ≠ [] :=
  (decRepAux_spec (n + 1) n (by omega)).2.1

theorem decRepr_digits (n : Nat) : ∀ c ∈ decRepr n, c.isDigit :=
  (decRepAux_spec (n + 1) n (by omega)).2.2

theorem digitsVal_replicate_zero (k : Nat) (s : Str) :
    digitsVal (List.replicate k '0' ++ s) = digitsVal s := by
  induction k with
  | zero => simp
  | succ k ih =>
    simpa [digitsVal, List.replicate_succ] using ih

theorem zeroPad_val (w : Nat) (n : Nat) : digitsVal (zeroPad w (decRepr n)) = n := by
  rw [zeroPad, digitsVal_replicate_zero, decRepr_val]

theorem zeroPad_digits (w : Nat) (s : Str) (h : ∀ c ∈ s, c.isDigit) :
    ∀ c ∈ zeroPad w s, c.isDigit := by
  intro c hc
  rcases List.mem_append.mp hc with h1 | h1
  · have := List.eq_of_mem_replicate h1
    subst this; decide
  · exact h c h1

theorem zeroPad_ne_nil (w : Nat) (s : Str) (h : s ≠ []) : zeroPad w s ≠ [] := by
  intro hcon
  exact h (List.append_eq_nil.mp hcon).2

theorem litConsume_append (a b : Str) : litConsume a (a ++ b) = some b := by
  induction a with
  | nil => rfl
  | cons c cs ih => simp [litConsume, ih]

theorem takeWhile_exact (p : Char → Bool) (tok rest : Str)
    (htok : ∀ c ∈ tok, p c)
    (hrest : rest = [] ∨ ∃ r, rest = '/' :: r ∧ p '/' = false) :
    (tok ++ rest).takeWhile p = tok ∧ (tok ++ rest).dropWhile p = rest := by
  induction tok with
  | nil =>
    rcases hrest with h | ⟨r, hr, hp⟩
    · subst h; simp
    · subst hr; simp [List.takeWhile, List.dropWhile, hp]
  | cons c cs ih =>
    have hc : p c := htok c (by simp)
    have := ih (fun d hd => htok d (by simp [hd]))
    simp [List.takeWhile, List.dropWhile, hc, this.1, this.2]

/-- The `/`-prefixed flattening of segments: `preSlash [a, b] = "/a/b"`. -/
def preSlash (ss : List Str) : Str :=
  ss.foldr (fun s a => '/' :: (s ++ a)) []

theorem preSlash_eq_joinSlash (s : Str) (ss : List Str) :
    '/' :: joinSlash (s :: ss) = preSlash (s :: ss) := by
  induction ss generalizing s with
  | nil => simp [joinSlash, preSlash]
  | cons s' ss ih =>
    show '/' :: (s ++ '/' :: joinSlash (s' :: ss)) = '/' :: (s ++ preSlash (s' :: ss))
    rw [ih s']

theorem alookup_map_self {β : Type} (g : Str → β) (pos : List Str) (v : Str)
    (h : v ∈ pos) : alookup v (pos.map (fun w => (w, g w))) = some (g v) := by
  induction pos with
  | nil => cases h
  | cons w ws ih =>
    simp only [List.map_cons, alookup]
    by_cases hw : w = v
    · subst hw; simp
    · simp only [if_neg hw]
      refine ih ?_
      rcases List.mem_cons.mp h with h | h
      · exact absurd h.symm hw
      · exact h

theorem alookup_append_left {β : Type} (k : Str) (l1 l2 : List (Str × β))
    (h : alookup k l1 = none) : alookup k (l1 ++ l2) = alookup k l2 := by
  induction l1 with
  | nil => simp
  | cons p rest ih =>
    simp only [alookup, List.cons_append] at *
    by_cases hk : p.1 = k
    · simp [hk] at h
    · rw [if_neg hk] at h ⊢
      exact ih h

theorem alookup_append_some {β : Type} (k : Str) (l1 l2 : List (Str × β)) (x : β)
    (h : alookup k l1 = some x) : alookup k (l1 ++ l2) = some x := by
  induction l1 with
  | nil => simp [alookup] at h
  | cons p rest ih =>
    simp only [alookup, List.cons_append] at *
    by_cases hk : p.1 = k
    · simpa [hk] using h
    · rw [if_neg hk] at h ⊢
      exact ih h

theorem aset_append_of_not_mem {β : Type} (k : Str) (x : β) (l1 l2 : List (Str × β))
    (h : alookup k l1 = none) : aset k x (l1 ++ l2) = l1 ++ aset k x l2 := by
  induction l1 with
  | nil => simp
  | cons p rest ih =>
    simp only [alookup] at h
    by_cases hk : p.1 = k
    · simp [hk] at h
    · rw [if_neg hk] at h
      simp only [List.cons_append, aset, if_neg hk]
      rw [show rest.append l2 = rest ++ l2 from rfl, ih h]

@[simp] theorem exc_bind_ok {ε : Type u} {α β : Type v} (a : α) (f : α → Except ε β) :
    (Except.ok a >>= f) = f a := rfl

@[simp] theorem exc_bind_err {ε : Type u} {α β : Type v} (e : ε) (f : α → Except ε β) :
    ((Except.error e : Except ε α) >>= f) = Except.error e := rfl

@[simp] theorem exc_pure {ε : Type u} {α : Type v} (a : α) :
    (pure a : Except ε α) = Except.ok a := rfl

/-! ## Structure of a successfully compiled `Mapping` -/

/-- The variable names of a component list, in order. -/
def varNames (comps : List Component) : List Str :=
  comps.filterMap (fun c => match c with | .var v _ => some v | .fixed _ => none)

/-- The (name, format) pairs of the variable components, in order. -/
def varFmts (comps : List Component) : List (Str × Option Str) :=
  comps.filterMap (fun c => match c with | .var v f => some (v, f) | .fixed _ => none)

theorem buildVarsAux_ok (comps : List Component) :
    ∀ pos vd fm P V F, buildVarsAux comps pos vd fm = .ok (P, V, F) →
      P = pos ++ varNames comps ∧
      V = vd ++ (varNames comps).map (fun v => (v, (none : Option PyVal))) ∧
      F = fm ++ varFmts comps ∧
      (∀ v ∈ varNames comps, alookup v vd = none) ∧
      (varNames comps).Nodup := by
  induction comps with
  | nil =>
    intro pos vd fm P V F h
    simp only [buildVarsAux, Except.ok.injEq, Prod.mk.injEq] at h
    obtain ⟨h1, h2, h3⟩ := h
    simp [varNames, varFmts, ← h1, ← h2, ← h3]
  | cons c rest ih =>
    intro pos vd fm P V F h
    match c with
    | .fixed n =>
      obtain ⟨h1, h2, h3, h4, h5⟩ := ih pos vd fm P V F h
      exact ⟨h1, h2, h3, h4, h5⟩
    | .var v f =>
      simp only [buildVarsAux] at h
      by_cases hv : (alookup v vd).isSome
      · simp [hv] at h
      · rw [if_neg hv] at h
        obtain ⟨h1, h2, h3, h4, h5⟩ :=
          ih (pos ++ [v]) (vd ++ [(v, none)]) (fm ++ [(v, f)]) P V F h
        have hvnone : alookup v vd = none := by
          cases hvd : alookup v vd
          · rfl
          · simp [hvd] at hv
        have hnotmem : v ∉ varNames rest := by
          intro hmem
          have := h4 v hmem
          rw [alookup_append_left v vd [(v, none)] hvnone] at this
          simp [alookup] at this
        have hrest : ∀ w ∈ varNames rest, alookup w vd = none := by
          intro w hw
          have h4w := h4 w hw
          cases hvd : alookup w vd with
          | none => rfl
          | some x =>
            rw [alookup_append_some w vd [(v, none)] x hvd] at h4w
            cases h4w
        have hcons : varNames (Component.var v f :: rest) = v :: varNames rest := by
          simp [varNames]
        have hconsF : varFmts (Component.var v f :: rest) = (v, f) :: varFmts rest := by
          simp [varFmts]
        refine ⟨?_, ?_, ?_, ?_, ?_⟩
        · rw [hcons, h1]; simp
        · rw [hcons, h2]; simp
        · rw [hconsF, h3]; simp
        · intro w hw
          rw [hcons] at hw
          rcases List.mem_cons.mp hw with hw | hw
          · subst hw; exact hvnone
          · exact hrest w hw
        · rw [hcons]
          exact List.nodup_cons.mpr ⟨hnotmem, h5⟩

theorem mappingInit_ok (resid scheme netloc : Str) (abs : Bool)
    (comps : List Component) (q fr : Str) (it op : Dyn) (m : Mapping)
    (h : mappingInit resid (scheme, netloc, abs, comps, q, fr) it op = .ok m) :
    m.resid = resid ∧ m.pre = (scheme, netloc) ∧ m.suf = (q, fr) ∧
    m.absolute = abs ∧ m.components = comps ∧ m.isterminal = it ∧
    m.positional = varNames comps ∧
    m.vardict = (varNames comps).map (fun v => (v, (none : Option PyVal))) ∧
    m.formats = varFmts comps ∧ (varNames comps).Nodup := by
  simp only [mappingInit] at h
  cases hop : processOptparams op with
  | error e => rw [hop] at h; simp at h
  | ok opts =>
    rw [hop] at h
    cases hbv : buildVarsAux comps [] [] [] with
    | error e => rw [hbv] at h; simp at h
    | ok triple =>
      obtain ⟨P, V, F⟩ := triple
      rw [hbv] at h
      simp only [exc_bind_ok, Except.ok.injEq] at h
      obtain ⟨h1, h2, h3, h4, h5⟩ := buildVarsAux_ok comps [] [] [] P V F hbv
      subst h
      refine ⟨rfl, rfl, rfl, rfl, rfl, rfl, ?_, ?_, ?_, h5⟩
      · show P = varNames comps
        rw [h1]; simp
      · show V = (varNames comps).map (fun v => (v, (none : Option PyVal)))
        rw [h2]; simp
      · show F = varFmts comps
        rw [h3]; simp

theorem vardict_missing (names : List Str) :
    (names.map (fun v => (v, (none : Option PyVal)))).filterMap
      (fun p => if p.2.isNone then some p.1 else none) = names := by
  induction names with
  | nil => rfl
  | cons v rest ih => simp [ih]

theorem mem_infix_quoteJoin (v : Str) (xs : List Str) (h : v ∈ xs) :
    List.IsInfix v (quoteJoin xs) := by
  induction xs with
  | nil => cases h
  | cons x xs ih =>
    rcases List.mem_cons.mp h with hx | hx
    · subst hx
      cases xs with
      | nil => exact ⟨[sq], [sq], by simp [quoteJoin]⟩
      | cons y ys => exact ⟨[sq], sq :: ',' :: ' ' :: quoteJoin (y :: ys), by simp [quoteJoin]⟩
    · cases xs with
      | nil => cases hx
      | cons y ys =>
        refine (ih hx).trans ?_
        exact ⟨sq :: x ++ [sq, ',', ' '], [], by simp [quoteJoin]⟩

/-! ## Claim theorems: duplicate-id registration (C3) -/

/-- **C3**: registering a second mapping under a resource-id already present in
the mapper always raises `RanvierError` — never overwrites — and the error
message contains both the existing mapping's rendered pattern and the new
mapping's rendered pattern.  Tree initialization, `add_static` and `add_alias`
all register through `_add_mapping`, so none of them can return a new table
when the id is taken. -/
theorem duplicate_registration_always_errors (u : UrlMapperS) (m existing : Mapping)
    (h : alookup m.resid u.mappings = some existing) :
    (∃ msg, addMapping u m = .error (.ranvier msg) ∧
      List.IsInfix (existing.renderPattern u.rootloc) msg ∧
      List.IsInfix (m.renderPattern u.rootloc) msg) ∧
    (∀ u', addMapping u m ≠ .ok u') ∧
    (∀ pat u', addStatic u m.resid pat ≠ .ok u') ∧
    (∀ srcid u', addAlias u m.resid srcid ≠ .ok u') := by
  have hmain : ∃ msg, addMapping u m = .error (.ranvier msg) ∧
      List.IsInfix (existing.renderPattern u.rootloc) msg ∧
      List.IsInfix (m.renderPattern u.rootloc) msg := by
    refine ⟨_, by rw [addMapping, h], ?_, ?_⟩
    · refine ⟨("Error: Duplicate resource id ".toList ++ sq :: (m.resid ++ [sq, ':'])) ++
        '\n' :: "  Existing mapping: ".toList, ?_, ?_⟩
      · exact '\n' :: ("  New mapping     : ".toList ++ m.renderPattern u.rootloc)
      · simp
    · refine ⟨("Error: Duplicate resource id ".toList ++ sq :: (m.resid ++ [sq, ':'])) ++
        '\n' :: ("  Existing mapping: ".toList ++ existing.renderPattern u.rootloc) ++
        '\n' :: "  New mapping     : ".toList, [], ?_⟩
      simp
  have hdup : ∀ (m2 : Mapping), m2.resid = m.resid → ∀ u', addMapping u m2 ≠ .ok u' := by
    intro m2 hres u' hok
    rw [addMapping, hres, h] at hok
    cases hok
  refine ⟨hmain, hdup m rfl, ?_, ?_⟩
  · intro pat u' hok
    simp only [addStatic] at hok
    cases hp : urlpatternToComponents pat with
    | error e => rw [hp] at hok; simp at hok
    | ok pr =>
      obtain ⟨⟨scheme, netloc, abs, comps, q, fr⟩, istr⟩ := pr
      rw [hp] at hok
      simp only [exc_bind_ok] at hok
      cases hmi : mappingInit m.resid (scheme, netloc, abs, comps, q, fr) (.boolD istr) .noneD with
      | error e => rw [hmi] at hok; simp at hok
      | ok m2 =>
        rw [hmi] at hok
        simp only [exc_bind_ok] at hok
        exact hdup m2 (mappingInit_ok _ _ _ _ _ _ _ _ _ _ hmi).1 u' hok
  · intro srcid u' hok
    simp only [addAlias] at hok
    cases hs : alookup srcid u.mappings with
    | none => rw [hs] at hok; cases hok
    | some m3 =>
      rw [hs] at hok
      exact hdup { m3 with resid := m.resid } rfl u' hok

/-- The compiled mapping of the static pattern `/home` under id `@@A`. -/
def homeMapping : Mapping :=
  { pre := ([], []), suf := ([], []), absolute := true,
    components := [.fixed "home".toList], resid := "@@A".toList,
    isterminal := .boolD false, optparams := [],
    urltmpl := "home".toList, urltmplUntyped := "home".toList,
    positional := [], vardict := [], formats := [] }

/-- The compiled mapping of the static pattern `/dup`, also under id `@@A`. -/
def dupMapping : Mapping :=
  { pre := ([], []), suf := ([], []), absolute := true,
    components := [.fixed "dup".toList], resid := "@@A".toList,
    isterminal := .boolD false, optparams := [],
    urltmpl := "dup".toList, urltmplUntyped := "dup".toList,
    positional := [], vardict := [], formats := [] }

/-- The message the duplicate registration of `@@A` produces. -/
def dupMsg0 : Str :=
  ("Error: Duplicate resource id ".toList ++ sq :: ("@@A".toList ++ [sq, ':'])) ++
  '\n' :: ("  Existing mapping: ".toList ++ "/home".toList) ++
  '\n' :: ("  New mapping     : ".toList ++ "/dup".toList)

/-- Witness for the duplicate-registration theorem: a one-entry table rejects
a second mapping under the same id, quoting both patterns. -/
theorem duplicate_registration_always_errors_witness :
    alookup dupMapping.resid (UrlMapperS.mk none [("@@A".toList, homeMapping)]).mappings
      = some homeMapping ∧
    addMapping ⟨none, [("@@A".toList, homeMapping)]⟩ dupMapping =
      .error (.ranvier dupMsg0) ∧
    List.IsInfix (homeMapping.renderPattern none) dupMsg0 ∧
    List.IsInfix (dupMapping.renderPattern none) dupMsg0 := by
  obtain ⟨msg, heq, h1, h2⟩ :=
    (duplicate_registration_always_errors ⟨none, [("@@A".toList, homeMapping)]⟩
      dupMapping homeMapping rfl).1
  have hmsg : msg = dupMsg0 := by
    have h3 : (Except.error (PyErr.ranvier msg) : Except PyErr UrlMapperS) =
        .error (.ranvier dupMsg0) := heq.symm.trans rfl
    exact PyErr.ranvier.inj (Except.error.inj h3)
  subst hmsg
  exact ⟨rfl, heq, h1, h2⟩

/-! ## Claim theorems: missing-argument detection (C7) -/

/-- **C7**: for a compiled mapping with at least one positional variable (none
of which can carry a default: `vardict` slots are always created as `None`),
calling `mapurl` with zero arguments raises `RanvierError`, and the message
contains the name of every still-missing positional variable. -/
theorem mapurl_zero_args_lists_missing (resid scheme netloc : Str) (abs : Bool)
    (comps : List Component) (q fr : Str) (it op : Dyn) (m : Mapping)
    (rootloc : Option Str)
    (hm : mappingInit resid (scheme, netloc, abs, comps, q, fr) it op = .ok m)
    (hpos : m.positional ≠ []) :
    ∃ msg, mapurl m [] [] rootloc = .error (.ranvier msg) ∧
      ∀ v ∈ m.positional, List.IsInfix v msg := by
  obtain ⟨_, _, _, _, _, _, hposn, hvd, _, _⟩ :=
    mappingInit_ok _ _ _ _ _ _ _ _ _ _ hm
  have hmu : mapurl m [] [] rootloc = mapurlFrom m none [] rootloc := by
    simp [mapurl, mapurlPositional, zipPosArgs]
  rw [hmu, mapurlFrom]
  simp only [applyKwds, exc_bind_ok]
  rw [hvd, vardict_missing, ← hposn]
  rw [if_pos hpos]
  refine ⟨_, rfl, ?_⟩
  intro v hv
  refine (mem_infix_quoteJoin v m.positional hv).trans ?_
  exact ⟨"Error: Missing values attempting to map resource ".toList ++
    sq :: (m.resid ++ [sq, ':', ' ']), [], by simp⟩

/-- The compiled mapping of the static pattern `/users/(user)/home`. -/
def userMapping : Mapping :=
  { pre := ([], []), suf := ([], []), absolute := true,
    components := [.fixed "users".toList, .var "user".toList none,
      .fixed "home".toList],
    resid := "@@M".toList, isterminal := .boolD false, optparams := [],
    urltmpl := "users/%(user)s/home".toList,
    urltmplUntyped := "users/%(user)s/home".toList,
    positional := ["user".toList], vardict := [("user".toList, none)],
    formats := [("user".toList, none)] }

/-- The missing-values message for `@@M` with `user` unfilled. -/
def missMsg0 : Str :=
  "Error: Missing values attempting to map resource ".toList ++
    sq :: ("@@M".toList ++ sq :: ':' :: ' ' :: (sq :: ("user".toList ++ [sq])))

/-- Witness: the static mapping `/users/(user)/home` has one positional
variable, and `mapurl` with no arguments fails naming it. -/
theorem mapurl_zero_args_lists_missing_witness :
    mappingInit "@@M".toList
      ([], [], true, [.fixed "users".toList, .var "user".toList none,
        .fixed "home".toList], [], []) (.boolD false) .noneD = .ok userMapping ∧
    userMapping.positional ≠ [] ∧
    mapurl userMapping [] [] none = .error (.ranvier missMsg0) ∧
    List.IsInfix "user".toList missMsg0 := by
  obtain ⟨msg, heq, hall⟩ := mapurl_zero_args_lists_missing "@@M".toList [] [] true
    [.fixed "users".toList, .var "user".toList none, .fixed "home".toList] [] []
    (.boolD false) .noneD userMapping none rfl (by decide)
  have hmsg : msg = missMsg0 := by
    have h3 : (Except.error (PyErr.ranvier msg) : Except PyErr Str) =
        .error (.ranvier missMsg0) := heq.symm.trans rfl
    exact PyErr.ranvier.inj (Except.error.inj h3)
  subst hmsg
  exact ⟨rfl, by decide, heq, hall "user".toList (by decide)⟩

/-! ## Claim theorems: format without variable (C9) -/

/-- **C9**: `declare_target` called with a truthy rendering format but no
(or an empty) variable name always raises a construction error: the
double-leaf error if the resource already declared itself a leaf, otherwise
the format-without-variable error. -/
theorem declare_target_format_without_variable (v : EnumVisitor)
    (varname format : Option Str) (hf : strTruthy format = true)
    (hv : strTruthy varname = false) :
    ∃ msg, declareTarget v varname format = .error (.ranvier msg) := by
  unfold declareTarget
  by_cases hleaf : v.leaf.isSome
  · simp [hleaf]
  · simp [hleaf, hf, hv]

/-- Witness: a fresh visitor rejects a `declare_target` call carrying the
format `08d` and no variable name. -/
theorem declare_target_format_without_variable_witness :
    strTruthy (some "08d".toList) = true ∧ strTruthy (none : Option Str) = false ∧
    declareTarget ⟨none, []⟩ none (some "08d".toList) =
      .error (.ranvier "Error: You cannot declare a format without a variable.".toList) := by
  obtain ⟨msg, heq⟩ := declare_target_format_without_variable ⟨none, []⟩ none
    (some "08d".toList) (by decide) (by decide)
  have hmsg : msg = "Error: You cannot declare a format without a variable.".toList := by
    have h3 : (Except.error (PyErr.ranvier msg) : Except PyErr EnumVisitor) =
        .error (.ranvier "Error: You cannot declare a format without a variable.".toList) :=
      heq.symm.trans rfl
    exact PyErr.ranvier.inj (Except.error.inj h3)
  subst hmsg
  exact ⟨by decide, by decide, heq⟩

/-! ## Claim theorems: scalar single positional argument (C10) -/

/-- **C10**: a single positional argument of string or integer type is always
routed to the positional branch of `mapurl` — it fills the first positional
variable — while the source-object fallback runs only for a single argument of
any other type, so an integer (or string) argument never acts as a value
source object. -/
theorem mapurl_single_scalar_is_positional (m : Mapping) (p : Str) (ps : List Str)
    (kwds : List (Str × PyVal)) (rootloc : Option Str)
    (hpos : m.positional = p :: ps) (hk : alookup p kwds = none) :
    (∀ n : Int, mapurl m [.int n] kwds rootloc =
      mapurlFrom m none (aset p (.int n) kwds) rootloc) ∧
    (∀ s : Str, mapurl m [.str s] kwds rootloc =
      mapurlFrom m none (aset p (.str s) kwds) rootloc) ∧
    (∀ a : PyVal, a.scalar = false →
      mapurl m [a] kwds rootloc = mapurlFrom m (some a.entries) kwds rootloc) := by
  have hbr : ∀ a : PyVal, a.scalar = true →
      mapurl m [a] kwds rootloc = mapurlFrom m none (aset p a kwds) rootloc := by
    intro a ha
    have h1 : mapurl m [a] kwds rootloc = mapurlPositional m [a] kwds rootloc := by
      simp [mapurl, ha]
    rw [h1, mapurlPositional, hpos]
    rw [if_neg (by simp)]
    simp [zipPosArgs, hk]
  refine ⟨fun n => hbr (.int n) rfl, fun s => hbr (.str s) rfl, ?_⟩
  intro a ha
  simp [mapurl, ha]

/-- The compiled mapping of the static pattern `/users/(user)`. -/
def usersVarMapping : Mapping :=
  { pre := ([], []), suf := ([], []), absolute := true,
    components := [.fixed "users".toList, .var "user".toList none],
    resid := "@@M".toList, isterminal := .boolD false, optparams := [],
    urltmpl := "users/%(user)s".toList, urltmplUntyped := "users/%(user)s".toList,
    positional := ["user".toList], vardict := [("user".toList, none)],
    formats := [("user".toList, none)] }

/-- Witness: with one positional variable `user`, the integer `5` fills it (and
is not used as an attribute source), while a dict argument goes through the
source-object branch. -/
theorem mapurl_single_scalar_is_positional_witness :
    mappingInit "@@M".toList
      ([], [], true, [.fixed "users".toList, .var "user".toList none], [], [])
      (.boolD false) .noneD = .ok usersVarMapping ∧
    usersVarMapping.positional = ["user".toList] ∧
    mapurl usersVarMapping [.int 5] [] none =
      mapurlFrom usersVarMapping none (aset "user".toList (.int 5) []) none ∧
    mapurl usersVarMapping [.dict [("user".toList, .str "blais".toList)]] [] none =
      mapurlFrom usersVarMapping (some [("user".toList, .str "blais".toList)]) [] none := by
  refine ⟨rfl, rfl, ?_, ?_⟩
  · exact (mapurl_single_scalar_is_positional usersVarMapping "user".toList [] [] none
      rfl rfl).1 5
  · exact (mapurl_single_scalar_is_positional usersVarMapping "user".toList [] [] none
      rfl rfl).2.2 (.dict [("user".toList, .str "blais".toList)]) rfl

/-! ## Valid arguments and segments for the render/match round trip -/

/-- Characters that the compiled regular expression interprets literally and
that are inert in every other string context of the mapper (not `/`, `?`, `#`,
`:` and not a regexp metacharacter). -/
def litCh (c : Char) : Bool := c.isAlphanum || c = '_' || c = '-'

theorem litCh_safe (c : Char) (h : litCh c = true) :
    c ≠ '/' ∧ c ≠ '?' ∧ c ≠ '#' := by
  refine ⟨?_, ?_, ?_⟩ <;> (rintro rfl; simp [litCh, Char.isAlphanum, Char.isAlpha,
    Char.isUpper, Char.isLower, Char.isDigit] at h)

/-- Well-formed root location for round-trip matching: absent, or a
slash-led literal path that does not begin with `//`. -/
def wfRootloc : Option Str → Prop
  | none => True
  | some r => ∃ c rest, r = '/' :: c :: rest ∧ litCh c = true ∧
      ∀ d ∈ rest, litCh d = true ∨ d = '/'

/-- A valid string value for an unformatted (or `s`-formatted) variable: it
must render into exactly one path segment and survive `urlsplit`. -/
def wfTok (s : Str) : Prop := s ≠ [] ∧ ∀ c ∈ s, c ≠ '/' ∧ c ≠ '?' ∧ c ≠ '#'

/-- A zero-padding decimal format (`d`, `0d`, `08d`, ...): what the spec's
format-aware matching table describes (`d` renders digits only).  A width
without the zero flag would render space-padding, which the `[0-9]+` matcher
rejects, so those formats are outside the round-trip claim. -/
def zeroPadD (fs : Str) : Prop :=
  fs.getLast? = some 'd' ∧ (∀ c ∈ fs.dropLast, c.isDigit) ∧
    (fs.dropLast = [] ∨ fs.dropLast.head? = some '0')

/-- A valid component under an assignment `f` of values to variable names:
fixed names are non-empty and literal; a variable either has no format (or a
plain `s`) and a well-formed string value, or a zero-padding `d` format and a
non-negative integer value. -/
def CompValid (f : Str → PyVal) : Component → Prop
  | .fixed n => n ≠ [] ∧ ∀ c ∈ n, litCh c = true
  | .var v fmt =>
    ((fmt = none ∨ fmt = some ['s']) ∧ ∃ s, f v = .str s ∧ wfTok s) ∨
    ((∃ fs, fmt = some fs ∧ zeroPadD fs) ∧ ∃ k : Nat, f v = .int (k : Int))

/-- The `Matched` value that merely re-packages an argument value. -/
def asMatched : PyVal → Matched
  | .str s => .str s
  | .int n => .intM n
  | .dict _ => .str []
  | .obj _ => .str []

/-- The relation between a component and its rendered segment that the round
trip rests on: a fixed segment is its literal name; a variable segment is
non-empty, inert, inside its capture class, and coerces back to the argument
value. -/
def CompSeg (f : Str → PyVal) : Component → Str → Prop
  | .fixed n, seg => seg = n ∧ n ≠ [] ∧ ∀ ch ∈ n, litCh ch = true
  | .var v fmt, seg => seg ≠ [] ∧ (∀ ch ∈ seg, ch ≠ '/' ∧ ch ≠ '?' ∧ ch ≠ '#') ∧
      (∃ cls, classOf fmt = some cls ∧ (∀ ch ∈ seg, cls ch = true) ∧ cls '/' = false) ∧
      coerceMatch (some fmt) seg = asMatched (f v)

theorem compSeg_wf (f : Str → PyVal) (c : Component) (seg : Str)
    (h : CompSeg f c seg) :
    seg ≠ [] ∧ ∀ ch ∈ seg, ch ≠ '/' ∧ ch ≠ '?' ∧ ch ≠ '#' := by
  match c with
  | .fixed n =>
    obtain ⟨hseg, hne, hlit⟩ := h
    subst hseg
    exact ⟨hne, fun ch hch => litCh_safe ch (hlit ch hch)⟩
  | .var v fmt =>
    exact ⟨h.1, h.2.1⟩

/-- The workhorse fact about a valid variable component: the typed template
formats its value into a non-empty run of its capture class, and the match
coercion recovers exactly the value. -/
theorem compValid_var_facts (v : Str) (fmt : Option Str) (f : Str → PyVal)
    (h : CompValid f (.var v fmt)) :
    ∃ tok, pyFormatConv (convOf fmt) (f v) = .ok tok ∧ CompSeg f (.var v fmt) tok := by
  rcases h with ⟨hfmt, s, hfv, hs, hsafe⟩ | ⟨⟨fs, hfmt, hdlast, hdigits, hflag⟩, k, hfv⟩
  · -- string value, no format or `s`
    have hconv : convOf fmt = ['s'] := by
      rcases hfmt with h | h <;> subst h <;> rfl
    have hcls : classOf fmt = some (fun c => decide (c ≠ '/')) := by
      rcases hfmt with h | h <;> subst h <;> rfl
    refine ⟨s, ?_, ?_, ?_, ⟨_, hcls, ?_, by decide⟩, ?_⟩
    · rw [hconv, hfv]
      show pyFormatConv ['s'] (.str s) = .ok s
      simp [pyFormatConv, parseFmt, digitsVal, spacePad]
    · exact hs
    · exact hsafe
    · intro ch hch
      simp only [decide_eq_true_eq]
      exact (hsafe ch hch).1
    · rcases hfmt with h | h <;> subst h <;> simp [coerceMatch, fmtTruthy, hfv, asMatched]
  · -- integer value, zero-padding `d` format
    have hfs_ne : fs ≠ [] := by
      intro hcon; subst hcon; simp at hdlast
    have hconv : convOf fmt = fs := by
      subst hfmt; simp [convOf, fmtTruthy, hfs_ne]
    have hbody : fs.dropLast.all Char.isDigit = true := by
      rw [List.all_eq_true]; exact fun c hc => hdigits c hc
    have hnots : fs.getLast? ≠ some 's' := by rw [hdlast]; decide
    have hparse : parseFmt fs = .dConv (fs.dropLast.head? = some '0')
        (digitsVal fs.dropLast) := by
      simp only [parseFmt, hdlast, hbody]
      simp
    have hcls : classOf fmt = some Char.isDigit := by
      subst hfmt
      simp only [classOf]
      rw [if_neg hnots, if_pos hdlast]
    set tok : Str := if fs.dropLast.head? = some '0' then
        zeroPad (digitsVal fs.dropLast) (decRepr k) else decRepr k with htokdef
    have htokconv : pyFormatConv (convOf fmt) (f v) = .ok tok := by
      rw [hconv, hfv]
      simp only [pyFormatConv, hparse]
      have hnonneg : ¬ ((k : Int) < 0) := by omega
      rcases hflag with hnil | hzero
      · rw [htokdef, if_neg (by rw [hnil]; decide)]
        rw [hnil]
        simp [hnonneg, spacePad, digitsVal, intRepr, Int.toNat_natCast]
      · rw [htokdef, if_pos hzero]
        simp only [hzero]
        simp [hnonneg, Int.toNat_natCast]
    have htokdigits : ∀ c ∈ tok, c.isDigit := by
      rw [htokdef]
      split
      · exact zeroPad_digits _ _ (decRepr_digits k)
      · exact decRepr_digits k
    have htokne : tok ≠ [] := by
      rw [htokdef]
      split
      · exact zeroPad_ne_nil _ _ (decRepr_ne_nil k)
      · exact decRepr_ne_nil k
    have htokval : digitsVal tok = k := by
      rw [htokdef]
      split
      · exact zeroPad_val _ k
      · exact decRepr_val k
    refine ⟨tok, htokconv, htokne, ?_, ⟨_, hcls, htokdigits, by decide⟩, ?_⟩
    · intro ch hch
      have hd := htokdigits ch hch
      refine ⟨?_, ?_, ?_⟩ <;> (rintro rfl; simp [Char.isDigit] at hd)
    · subst hfmt
      simp only [coerceMatch, fmtTruthy]
      rw [if_pos (by simp [hfs_ne]), if_pos hdlast, hfv, asMatched, htokval]

/-- The property of a capture entry relative to its variable declaration that
the round-trip coercion needs. -/
def CapCoerce (f : Str → PyVal) (vf : Str × Option Str) (cap : Str × Str) : Prop :=
  cap.1 = vf.1 ∧ coerceMatch (some vf.2) cap.2 = asMatched (f vf.1)

/-- Completeness of the compiled matcher on rendered segments: matching the
`/`-prefixed join of the segments (plus an optional trailing slash) succeeds
and captures each variable's segment. -/
theorem matchComps_of_segs (f : Str → PyVal) :
    ∀ (comps : List Component) (segs : List Str) (tail : Str),
      List.Forall₂ (CompSeg f) comps segs → (tail = [] ∨ tail = ['/']) →
      ∃ caps, matchComps comps (preSlash segs ++ tail) = .ok (some caps) ∧
        List.Forall₂ (CapCoerce f) (varFmts comps) caps := by
  intro comps segs tail hf2 htail
  induction hf2 with
  | nil =>
    refine ⟨[], ?_, by simp [varFmts]⟩
    simp only [preSlash, List.foldr_nil, List.nil_append, matchComps]
    rcases htail with h | h <;> simp [h]
  | cons hcs hrest ih =>
    rename_i c seg comps' segs'
    obtain ⟨caps', hmc', hf2'⟩ := ih
    have hshape : preSlash (seg :: segs') ++ tail =
        '/' :: (seg ++ (preSlash segs' ++ tail)) := by
      simp [preSlash]
    have hresthead : preSlash segs' ++ tail = [] ∨
        ∃ r, preSlash segs' ++ tail = '/' :: r := by
      cases segs' with
      | nil =>
        rcases htail with h | h
        · left; simp [preSlash, h]
        · right; exact ⟨[], by simp [preSlash, h]⟩
      | cons s2 ss2 =>
        right
        exact ⟨s2 ++ (preSlash ss2 ++ tail), by simp [preSlash]⟩
    match c, hcs with
    | .fixed n, hcs =>
      obtain ⟨hseg, hne, hlit⟩ := hcs
      refine ⟨caps', ?_, by simpa [varFmts] using hf2'⟩
      rw [hshape, hseg]
      simp only [matchComps, if_pos rfl]
      rw [litConsume_append]
      exact hmc'
    | .var v fmt, hcs =>
      obtain ⟨hne, hsafe, ⟨cls, hcls, hin, hslash⟩, hco⟩ := hcs
      refine ⟨(v, seg) :: caps', ?_, ?_⟩
      · rw [hshape]
        simp only [matchComps, if_pos rfl, hcls]
        have hspan := takeWhile_exact cls seg (preSlash segs' ++ tail) hin (by
          rcases hresthead with h | ⟨r, h⟩
          · left; exact h
          · right; exact ⟨r, h, hslash⟩)
        rw [hspan.1, hspan.2]
        rw [if_neg hne, hmc']
        rfl
      · have hvf : varFmts (Component.var v fmt :: comps') =
            (v, fmt) :: varFmts comps' := by simp [varFmts]
        rw [hvf]
        exact List.Forall₂.cons ⟨rfl, hco⟩ hf2'

theorem varNames_cons_fixed (n : Str) (rest : List Component) :
    varNames (.fixed n :: rest) = varNames rest := by simp [varNames]

theorem varNames_cons_var (v : Str) (fmt : Option Str) (rest : List Component) :
    varNames (.var v fmt :: rest) = v :: varNames rest := by simp [varNames]

theorem varFmts_keys (comps : List Component) :
    (varFmts comps).map Prod.fst = varNames comps := by
  induction comps with
  | nil => rfl
  | cons c rest ih =>
    match c with
    | .fixed n => simpa [varFmts, varNames] using ih
    | .var v fmt => simpa [varFmts, varNames] using ih

/-- The render side of the round trip: with valid components and a parameter
dict answering every variable, the typed-template substitution succeeds and
every segment stands in `CompSeg` to its component. -/
theorem substTyped_segs (f : Str → PyVal) (params : List (Str × PyVal)) :
    ∀ comps : List Component,
      (∀ c ∈ comps, CompValid f c) →
      (∀ v ∈ varNames comps, alookup v params = some (f v)) →
      ∃ segs, substTyped params comps = .ok segs ∧
        List.Forall₂ (CompSeg f) comps segs := by
  intro comps
  induction comps with
  | nil => intro _ _; exact ⟨[], rfl, List.Forall₂.nil⟩
  | cons c rest ih =>
    intro hval hp
    match c with
    | .fixed n =>
      obtain ⟨segs', hsub', hf2'⟩ := ih (fun d hd => hval d (by simp [hd]))
        (fun v hv => hp v (by rw [varNames_cons_fixed]; exact hv))
      have hv := hval (.fixed n) (by simp)
      refine ⟨n :: segs', ?_, List.Forall₂.cons ⟨rfl, hv.1, hv.2⟩ hf2'⟩
      simp [substTyped, hsub']
    | .var v fmt =>
      obtain ⟨segs', hsub', hf2'⟩ := ih (fun d hd => hval d (by simp [hd]))
        (fun w hw => hp w (by rw [varNames_cons_var]; simp [hw]))
      obtain ⟨tok, hconv, hcs⟩ := compValid_var_facts v fmt f (hval _ (by simp))
      have hvp : alookup v params = some (f v) := hp v (by rw [varNames_cons_var]; simp)
      refine ⟨tok :: segs', ?_, List.Forall₂.cons hcs hf2'⟩
      simp [substTyped, hvp, hconv, hsub']

/-! ## The `mapurl` pipeline on a full keyword assignment -/

theorem zipPosArgs_nil_args (resid : Str) (pos : List Str) (kwds : List (Str × PyVal)) :
    zipPosArgs resid pos [] kwds = .ok kwds := by
  cases pos <;> rfl

theorem applyKwds_fill (m : Mapping) (f : Str → PyVal) :
    ∀ (names : List Str) (pre : List (Str × Option PyVal)),
      (∀ v ∈ names, m.isvalid v = true) →
      (∀ v ∈ names, alookup v pre = none) →
      names.Nodup →
      applyKwds m (names.map (fun v => (v, f v)))
          (pre ++ names.map (fun v => (v, (none : Option PyVal)))) =
        .ok (pre ++ names.map (fun v => (v, some (f v)))) := by
  intro names
  induction names with
  | nil => intro pre _ _ _; simp [applyKwds]
  | cons v rest ih =>
    intro pre hvalid hpre hnd
    simp only [List.map_cons, applyKwds, List.cons_append]
    rw [if_pos (hvalid v (by simp))]
    have haset : aset v (some (f v))
        (pre ++ (v, (none : Option PyVal)) :: rest.map (fun w => (w, none))) =
        pre ++ (v, some (f v)) :: rest.map (fun w => (w, (none : Option PyVal))) := by
      rw [aset_append_of_not_mem v _ pre _ (hpre v (by simp))]
      simp [aset]
    rw [haset]
    have hassoc1 : pre ++ (v, some (f v)) :: rest.map (fun w => (w, (none : Option PyVal))) =
        (pre ++ [(v, some (f v))]) ++ rest.map (fun w => (w, (none : Option PyVal))) := by
      simp
    have hassoc2 : pre ++ (v, some (f v)) :: rest.map (fun w => (w, some (f w))) =
        (pre ++ [(v, some (f v))]) ++ rest.map (fun w => (w, some (f w))) := by
      simp
    rw [hassoc1, hassoc2]
    refine ih (pre ++ [(v, some (f v))]) (fun w hw => hvalid w (by simp [hw])) ?_
      (List.nodup_cons.mp hnd).2
    intro w hw
    have hwv : v ≠ w := by
      intro hcon; subst hcon; exact (List.nodup_cons.mp hnd).1 hw
    rw [alookup_append_left w pre _ (hpre w (by simp [hw]))]
    simp [alookup, hwv]

theorem filterMap_missing_all_some (names : List Str) (f : Str → PyVal) :
    (names.map (fun v => (v, some (f v)))).filterMap
      (fun p => if p.2.isNone then some p.1 else none) = [] := by
  induction names with
  | nil => rfl
  | cons v rest ih => simp [ih]

theorem filterMap_some_params (names : List Str) (f : Str → PyVal) :
    (names.map (fun v => (v, some (f v)))).filterMap
      (fun p => p.2.map (fun x => (p.1, x))) = names.map (fun v => (v, f v)) := by
  induction names with
  | nil => rfl
  | cons v rest ih => simp [ih]

/-- `mapurl` on an empty positional list and a keyword for every positional
variable reduces to a straight render with those values. -/
theorem mapurl_fill (m : Mapping) (f : Str → PyVal) (R : Option Str)
    (hvd : m.vardict = m.positional.map (fun v => (v, none)))
    (hnd : m.positional.Nodup) :
    mapurl m [] (m.positional.map (fun v => (v, f v))) R =
      m.render (m.positional.map (fun v => (v, f v))) R := by
  have h1 : mapurl m [] (m.positional.map (fun v => (v, f v))) R =
      mapurlFrom m none (m.positional.map (fun v => (v, f v))) R := by
    show mapurlPositional m [] _ R = _
    rw [mapurlPositional, if_neg (by simp), zipPosArgs_nil_args]
    rfl
  rw [h1, mapurlFrom]
  have happly : applyKwds m (m.positional.map (fun v => (v, f v))) m.vardict =
      .ok (m.positional.map (fun v => (v, some (f v)))) := by
    rw [hvd]
    have := applyKwds_fill m f m.positional []
      (fun v hv => by
        simp only [Mapping.isvalid, hvd]
        rw [alookup_map_self (fun _ => (none : Option PyVal)) _ _ hv]
        rfl)
      (fun v _ => rfl) hnd
    simpa using this
  rw [happly]
  simp only [exc_bind_ok]
  rw [filterMap_missing_all_some]
  rw [if_neg (by simp)]
  rw [filterMap_some_params]

/-! ## `urlsplit` on a plain path -/

theorem takeWhile_ne_all (sep : Char) : ∀ (s : Str), (∀ c ∈ s, c ≠ sep) →
    s.takeWhile (· ≠ sep) = s := by
  intro s
  induction s with
  | nil => intro _; rfl
  | cons c rest ih =>
    intro h
    rw [List.takeWhile_cons, if_pos (by simp [h c (by simp)])]
    rw [ih (fun d hd => h d (by simp [hd]))]

theorem dropWhile_ne_all (sep : Char) : ∀ (s : Str), (∀ c ∈ s, c ≠ sep) →
    s.dropWhile (· ≠ sep) = [] := by
  intro s
  induction s with
  | nil => intro _; rfl
  | cons c rest ih =>
    intro h
    rw [List.dropWhile_cons, if_pos (by simp [h c (by simp)])]
    exact ih (fun d hd => h d (by simp [hd]))

theorem splitFirst_no_occ (sep : Char) (s : Str) (h : ∀ c ∈ s, c ≠ sep) :
    splitFirst sep s = (s, []) := by
  rw [splitFirst, takeWhile_ne_all sep s h, dropWhile_ne_all sep s h]
  rfl

theorem urlsplit_plain (url : Str) (h1 : url.head? = some '/')
    (h2 : url.take 2 ≠ ['/', '/'])
    (h3 : ∀ c ∈ url, c ≠ '?') (h4 : ∀ c ∈ url, c ≠ '#') :
    urlsplit url = ([], [], url, [], []) := by
  obtain ⟨rest, hurl⟩ : ∃ rest, url = '/' :: rest := by
    cases url with
    | nil => simp at h1
    | cons a r =>
      simp only [List.head?_cons, Option.some.injEq] at h1
      exact ⟨r, by rw [h1]⟩
  subst hurl
  have hscheme : ∀ i, ('/' :: rest).findIdx? (· = ':') = some i →
      (decide (0 < i) && (('/' :: rest).take i).all schemeChar) = false := by
    intro i _
    cases i with
    | zero => simp
    | succ j =>
      simp only [List.take_succ_cons, List.all_cons]
      have : schemeChar '/' = false := by decide
      simp [this]
  rw [urlsplit]
  cases hfind : ('/' :: rest).findIdx? (· = ':') with
  | none =>
    simp only []
    rw [if_neg h2]
    rw [splitFirst_no_occ '#' _ h4, splitFirst_no_occ '?' _ h3]
  | some i =>
    simp only []
    rw [if_neg (by simp [hscheme i hfind])]
    rw [if_neg h2]
    rw [splitFirst_no_occ '#' _ h4, splitFirst_no_occ '?' _ h3]

theorem mem_joinSlash (c : Char) : ∀ (ss : List Str), c ∈ joinSlash ss →
    c = '/' ∨ ∃ s ∈ ss, c ∈ s
  | [], h => by cases h
  | [s], h => by right; exact ⟨s, by simp, by simpa [joinSlash] using h⟩
  | s :: s2 :: ss, h => by
    rw [show joinSlash (s :: s2 :: ss) = s ++ '/' :: joinSlash (s2 :: ss) from rfl] at h
    rcases List.mem_append.mp h with h | h
    · right; exact ⟨s, by simp, h⟩
    · rcases List.mem_cons.mp h with h | h
      · left; exact h
      · rcases mem_joinSlash c (s2 :: ss) h with h | ⟨s3, hs3, hc⟩
        · left; exact h
        · right; exact ⟨s3, by simp [List.mem_cons.mp hs3], hc⟩

theorem forall2_right_mem {α β : Type} {R : α → β → Prop} :
    ∀ {l1 : List α} {l2 : List β}, List.Forall₂ R l1 l2 →
      ∀ b ∈ l2, ∃ a ∈ l1, R a b := by
  intro l1 l2 h
  induction h with
  | nil => intro b hb; cases hb
  | cons hR hrest ih =>
    intro b hb
    rcases List.mem_cons.mp hb with hb | hb
    · subst hb
      exact ⟨_, by simp, hR⟩
    · obtain ⟨a, ha, hr⟩ := ih b hb
      exact ⟨a, by simp [ha], hr⟩

/-! ## Provenance: mappings registered by `initialize` -/

theorem addMapping_ok (u : UrlMapperS) (m : Mapping) (u' : UrlMapperS)
    (h : addMapping u m = .ok u') :
    u'.mappings = u.mappings ++ [(m.resid, m)] ∧ u'.rootloc = u.rootloc := by
  rw [addMapping] at h
  cases hl : alookup m.resid u.mappings with
  | some existing => rw [hl] at h; cases h
  | none =>
    rw [hl] at h
    cases h
    exact ⟨rfl, rfl⟩

theorem alookup_append_cases {β : Type} (k : Str) (l1 l2 : List (Str × β)) (x : β)
    (h : alookup k (l1 ++ l2) = some x) :
    alookup k l1 = some x ∨ (alookup k l1 = none ∧ alookup k l2 = some x) := by
  cases hl : alookup k l1 with
  | some y =>
    left
    have h2 : some y = some x := (alookup_append_some k l1 l2 y hl).symm.trans h
    exact h2
  | none =>
    right
    rw [alookup_append_left k l1 l2 hl] at h
    exact ⟨rfl, h⟩

/-- The registration step of `initializeM`. -/
def initStep (u : UrlMapperS) (p : PathDescr) : Except PyErr UrlMapperS := do
  let m ← mappingInit p.resid ([], [], false, p.components, [], [])
    (.listD p.optparams) (.boolD p.isterminal)
  addMapping u m

theorem foldAdd_lookup : ∀ (paths : List PathDescr) (u0 u : UrlMapperS),
    paths.foldlM initStep u0 = .ok u →
    ∀ r mm, alookup r u.mappings = some mm →
      alookup r u0.mappings = some mm ∨
      ∃ p : PathDescr, mappingInit p.resid ([], [], false, p.components, [], [])
        (.listD p.optparams) (.boolD p.isterminal) = .ok mm
  | [], u0, u, h => by
    intro r mm hm
    left
    simp only [List.foldlM_nil, exc_pure, Except.ok.injEq] at h
    subst h
    exact hm
  | p :: ps, u0, u, h => by
    intro r mm hm
    rw [List.foldlM_cons] at h
    cases hst : initStep u0 p with
    | error e => rw [hst] at h; simp at h
    | ok u1 =>
      rw [hst] at h
      simp only [exc_bind_ok] at h
      rcases foldAdd_lookup ps u1 u h r mm hm with hcase | hcase
      · rw [initStep] at hst
        cases hmi : mappingInit p.resid ([], [], false, p.components, [], [])
            (.listD p.optparams) (.boolD p.isterminal) with
        | error e => rw [hmi] at hst; cases hst
        | ok m1 =>
          rw [hmi] at hst
          simp only [exc_bind_ok] at hst
          obtain ⟨hmaps, _⟩ := addMapping_ok u0 m1 u1 hst
          rw [hmaps] at hcase
          rcases alookup_append_cases r u0.mappings [(m1.resid, m1)] mm hcase with
            hc | ⟨_, hc⟩
          · left; exact hc
          · right
            refine ⟨p, ?_⟩
            simp only [alookup] at hc
            by_cases hr : m1.resid = r
            · rw [if_pos hr] at hc
              cases hc
              exact hmi
            · rw [if_neg hr] at hc; cases hc
      · right; exact hcase

theorem initializeM_lookup (t : ResTree) (R : Option Str) (u : UrlMapperS)
    (h : initializeM ⟨R, []⟩ t = .ok u) (r : Str) (m : Mapping)
    (hm : alookup r u.mappings = some m) :
    ∃ p : PathDescr, mappingInit p.resid ([], [], false, p.components, [], [])
      (.listD p.optparams) (.boolD p.isterminal) = .ok m := by
  rw [initializeM] at h
  cases hv : visit t [] [] with
  | error e => rw [hv] at h; simp at h
  | ok paths =>
    rw [hv] at h
    simp only [exc_bind_ok] at h
    rcases foldAdd_lookup paths ⟨R, []⟩ u h r m hm with hc | hc
    · simp [alookup] at hc
    · exact hc

theorem getLast?_mem {α : Type} : ∀ (l : List α) (a : α), l.getLast? = some a → a ∈ l
  | [], a, h => by simp at h
  | [x], a, h => by
    simp only [List.getLast?_singleton, Option.some.injEq] at h
    simp [h]
  | x :: y :: rest, a, h => by
    rw [List.getLast?_cons_cons] at h
    simp [getLast?_mem (y :: rest) a h]

theorem alookup_of_mem_nodup {β : Type} :
    ∀ (l : List (Str × β)), (l.map Prod.fst).Nodup →
      ∀ k x, (k, x) ∈ l → alookup k l = some x := by
  intro l
  induction l with
  | nil => intro _ k x h; cases h
  | cons p rest ih =>
    intro hnd k x h
    simp only [List.map_cons, List.nodup_cons] at hnd
    rcases List.mem_cons.mp h with h | h
    · rw [← h]
      simp [alookup]
    · have hk : ¬ (p.1 = k) := by
        intro hcon
        exact hnd.1 (hcon ▸ (List.mem_map.mpr ⟨(k, x), h, rfl⟩))
      simp only [alookup, if_neg hk]
      exact ih hnd.2 k x h

theorem hjoin_cons (s : Str) (ss : List Str) : ∃ t, joinSlash (s :: ss) = s ++ t := by
  cases ss with
  | nil => exact ⟨[], by simp [joinSlash]⟩
  | cons s2 ss2 => exact ⟨'/' :: joinSlash (s2 :: ss2), rfl⟩

theorem urlunsplit_plain (p2 : Str) (h : p2.take 2 ≠ ['/', '/']) :
    urlunsplit [] [] p2 [] [] = p2 := by
  rw [urlunsplit]
  rw [if_neg (by decide), if_neg (by decide), if_neg (by decide)]
  rw [if_neg (by
    intro hc
    rcases hc with hc | hc
    · exact hc rfl
    · exact h hc.2)]

/-- What one successful capture guarantees relative to its variable's
declaration. -/
def CapOk (vf : Str × Option Str) (cap : Str × Str) : Prop :=
  cap.1 = vf.1 ∧ cap.2 ≠ [] ∧ ∃ cls, classOf vf.2 = some cls ∧ ∀ c ∈ cap.2, cls c = true

theorem matchComps_sound : ∀ (comps : List Component) (s : Str) (caps : List (Str × Str)),
    matchComps comps s = .ok (some caps) → List.Forall₂ CapOk (varFmts comps) caps
  | [], s, caps, h => by
    simp only [matchComps] at h
    by_cases hs : s = [] ∨ s = ['/']
    · rw [if_pos hs] at h
      cases h
      exact List.Forall₂.nil
    · rw [if_neg hs] at h; cases h
  | c :: cs, [], caps, h => by simp [matchComps] at h
  | .fixed n :: cs, ch :: s1, caps, h => by
    simp only [matchComps] at h
    by_cases hch : ch = '/'
    · rw [if_pos hch] at h
      cases hlc : litConsume n s1 with
      | none => rw [hlc] at h; cases h
      | some s2 =>
        rw [hlc] at h
        have := matchComps_sound cs s2 caps h
        simpa [varFmts] using this
    · rw [if_neg hch] at h; cases h
  | .var v f :: cs, ch :: s1, caps, h => by
    simp only [matchComps] at h
    by_cases hch : ch = '/'
    · rw [if_pos hch] at h
      cases hcls : classOf f with
      | none => rw [hcls] at h; cases h
      | some cls =>
        rw [hcls] at h
        dsimp only at h
        by_cases htok : s1.takeWhile cls = []
        · rw [if_pos htok] at h; cases h
        · rw [if_neg htok] at h
          cases hrec : matchComps cs (s1.dropWhile cls) with
          | error e => rw [hrec] at h; cases h
          | ok r =>
            rw [hrec] at h
            cases r with
            | none => simp at h
            | some caps2 =>
              simp only [exc_bind_ok, Option.map_some', Except.ok.injEq,
                Option.some.injEq] at h
              subst h
              have hvf : varFmts (Component.var v f :: cs) = (v, f) :: varFmts cs := by
                simp [varFmts]
              rw [hvf]
              refine List.Forall₂.cons ?_ (matchComps_sound cs _ caps2 hrec)
              refine ⟨rfl, htok, cls, hcls, ?_⟩
              intro ch2 hc2
              exact List.mem_takeWhile_imp hc2
    · rw [if_neg hch] at h; cases h

theorem forall2_capOk_alookup (vfs : List (Str × Option Str)) (caps : List (Str × Str))
    (h : List.Forall₂ CapOk vfs caps) :
    ∀ v fmt, alookup v vfs = some fmt →
      ∃ tok, alookup v caps = some tok ∧ CapOk (v, fmt) (v, tok) := by
  induction h with
  | nil => intro v fmt hv; simp [alookup] at hv
  | cons hR hrest ih =>
    intro v fmt hv
    rename_i vf cap vfs' caps'
    simp only [alookup] at hv ⊢
    by_cases hfst : vf.1 = v
    · rw [if_pos hfst] at hv
      cases hv
      rw [if_pos (by rw [hR.1, hfst])]
      refine ⟨cap.2, rfl, ?_, hR.2.1, hR.2.2⟩
      rfl
    · rw [if_neg hfst] at hv
      rw [if_neg (by rw [hR.1]; exact hfst)]
      exact ih v fmt hv

theorem alookup_map_val (g : Str → Str → Matched) :
    ∀ (caps : List (Str × Str)) (v : Str),
      alookup v (caps.map (fun p => (p.1, g p.1 p.2))) =
        (alookup v caps).map (fun tok => g v tok) := by
  intro caps v
  induction caps with
  | nil => rfl
  | cons p rest ih =>
    simp only [List.map_cons, alookup]
    by_cases hp : p.1 = v
    · subst hp; simp
    · simp [hp, ih]

/-- Successful `matchRegexp` passes through the literal root prefix and the
structural component matcher. -/
theorem matchRegexp_ok_struct (m : Mapping) (rootloc : Option Str) (path : Str)
    (caps : List (Str × Str)) (h : m.matchRegexp rootloc path = .ok (some caps)) :
    ∃ s, litConsume (if m.absolute then [] else rootloc.getD []) path = some s ∧
      matchComps m.components s = .ok (some caps) := by
  simp only [Mapping.matchRegexp] at h
  by_cases h1 : !compsClassed m.components
  · rw [if_pos h1] at h; cases h
  · rw [if_neg h1] at h
    by_cases h2 : m.pre ≠ (([] : Str), ([] : Str)) ∨ m.suf ≠ (([] : Str), ([] : Str))
    · rw [if_pos h2] at h; cases h
    · rw [if_neg h2] at h
      by_cases h3 : m.components.getLast? = some (.fixed [])
      · rw [if_pos h3] at h; cases h
      · rw [if_neg h3] at h
        cases hlc : litConsume (if m.absolute then [] else rootloc.getD []) path with
        | none => rw [hlc] at h; cases h
        | some s => rw [hlc] at h; exact ⟨s, rfl, h⟩

/-! ## Claim theorems: format-aware matching (C4) -/

/-- **C4**: for a compiled mapping with a positional variable whose declared
format ends in `d`, whenever `match` succeeds the captured URL segment for
that variable is a non-empty run of digits (the `[0-9]+` capture class admits
nothing else, so `match` cannot succeed on any other segment), and the value
returned for that variable is the integer value of those digits —
`Matched.intM`, not a string. -/
theorem match_d_format_digits_and_int (resid scheme netloc : Str) (abs : Bool)
    (comps : List Component) (q fr : Str) (it op : Dyn) (m : Mapping)
    (rootloc : Option Str) (url : Str) (v f : Str)
    (caps : List (Str × Str)) (res : List (Str × Matched))
    (hm : mappingInit resid (scheme, netloc, abs, comps, q, fr) it op = .ok m)
    (hvf : alookup v (varFmts comps) = some (some f))
    (hd : f.getLast? = some 'd')
    (hre : m.matchRegexp rootloc (urlsplit url).2.2.1 = .ok (some caps))
    (hmatch : matchUrl m rootloc url = .ok (some res)) :
    (alookup v caps).isSome ∧
    ∀ tok, alookup v caps = some tok →
      tok ≠ [] ∧ (∀ c ∈ tok, c.isDigit) ∧
      alookup v res = some (.intM (digitsVal tok)) := by
  obtain ⟨_, _, _, _, hcomps, _, _, _, hfmts, _⟩ :=
    mappingInit_ok _ _ _ _ _ _ _ _ _ _ hm
  simp only [matchUrl, hre, exc_bind_ok, Except.ok.injEq, Option.some.injEq] at hmatch
  obtain ⟨s, _, hmc⟩ := matchRegexp_ok_struct m rootloc _ caps hre
  rw [hcomps] at hmc
  have hsound := matchComps_sound comps s caps hmc
  obtain ⟨tok0, htokl, hcap⟩ := forall2_capOk_alookup _ _ hsound v (some f) hvf
  obtain ⟨_, htokne, cls, hcls, htokcls⟩ := hcap
  have hfne : f ≠ [] := by
    intro hcon; subst hcon; simp at hd
  have hnots : f.getLast? ≠ some 's' := by rw [hd]; decide
  have hclsd : cls = Char.isDigit := by
    simp only [classOf] at hcls
    rw [if_neg hnots, if_pos hd] at hcls
    cases hcls
    rfl
  subst hclsd
  refine ⟨by rw [htokl]; rfl, ?_⟩
  intro tok htok
  rw [htokl] at htok
  cases htok
  refine ⟨htokne, htokcls, ?_⟩
  rw [← hmatch,
    alookup_map_val (fun a b => coerceMatch (alookup a m.formats) b) caps v, htokl]
  simp only [Option.map_some']
  rw [hfmts, hvf]
  simp only [coerceMatch]
  rw [if_pos (by simp [fmtTruthy, hfne]), if_pos hd]

/-- The compiled mapping of the static pattern `/formatted/(uid%08d)`. -/
def intMapping : Mapping :=
  { pre := ([], []), suf := ([], []), absolute := true,
    components := [.fixed "formatted".toList, .var "uid".toList (some "08d".toList)],
    resid := "@@Int".toList, isterminal := .boolD false, optparams := [],
    urltmpl := "formatted/%(uid)08d".toList,
    urltmplUntyped := "formatted/%(uid)s".toList,
    positional := ["uid".toList],
    vardict := [("uid".toList, none)],
    formats := [("uid".toList, some "08d".toList)] }

/-- Witness: `/formatted/(uid%08d)` matched against `/formatted/00001042`
captures the digit run `00001042` and returns the integer 1042. -/
theorem match_d_format_digits_and_int_witness :
    mappingInit "@@Int".toList
      ([], [], true, [.fixed "formatted".toList, .var "uid".toList (some "08d".toList)],
        [], []) (.boolD false) .noneD = .ok intMapping ∧
    alookup "uid".toList (varFmts intMapping.components) = some (some "08d".toList) ∧
    intMapping.matchRegexp none (urlsplit "/formatted/00001042".toList).2.2.1 =
      .ok (some [("uid".toList, "00001042".toList)]) ∧
    matchUrl intMapping none "/formatted/00001042".toList =
      .ok (some [("uid".toList, .intM 1042)]) ∧
    "00001042".toList ≠ [] ∧ (∀ c ∈ "00001042".toList, c.isDigit) ∧
    alookup "uid".toList [("uid".toList, Matched.intM 1042)] =
      some (.intM (digitsVal "00001042".toList)) := by
  refine ⟨rfl, rfl, rfl, rfl, ?_⟩
  have h := match_d_format_digits_and_int "@@Int".toList [] [] true
    [.fixed "formatted".toList, .var "uid".toList (some "08d".toList)] [] []
    (.boolD false) .noneD intMapping none "/formatted/00001042".toList
    "uid".toList "08d".toList [("uid".toList, "00001042".toList)]
    [("uid".toList, .intM 1042)] rfl rfl rfl rfl rfl
  obtain ⟨-, h2⟩ := h
  obtain ⟨hne, hdig, hres⟩ := h2 "00001042".toList rfl
  exact ⟨hne, hdig, hres⟩

/-! ## Claim theorems: trailing-slash canonicalization (C2)

Two concrete trees exhibiting the argument swap of `UrlMapper.initialize`
(it unpacks `(resource, components, isterminal, optparams)` from tuples that
`Enumerator.visit` appended as `(resource, components, optparams, isterminal)`;
compare `getpaths`'s own docstring `(path, isterminal, optparams)`). -/

/-- A leaf resource at `/wopts` with no branches (terminal) that declares one
optional parameter, like the demo's `OptionalParams`. -/
def wLeaf : ResTree :=
  .node "@@W".toList [.declareTarget none none, .declareOptparam "cat".toList none]

/-- A root folder holding `wopts`. -/
def wTree : ResTree := .node "@@Root".toList [.branchStatic "wopts".toList wLeaf]

/-- A folder-with-menu-style resource at `/fold`: a leaf that also has a
further branch (non-terminal). -/
def foldLeaf : ResTree :=
  .node "@@Fold".toList [.declareTarget none none,
    .branchStatic "greed".toList (.node "@@G".toList [.declareTarget none none])]

/-- A root folder holding `fold`. -/
def foldTree : ResTree := .node "@@Root".toList [.branchStatic "fold".toList foldLeaf]

/-- **C2** (evaluation at the failing inputs): the enumerator records the
`/wopts` leaf as terminal (`isterminal = bool(branches) = False`), yet after
tree initialization `mapurl` renders it as `/wopts/` — a trailing slash on a
terminal-only mapping — because the swapped unpacking stores the (non-empty)
optional-parameter list in the mapping's `isterminal` slot.  Conversely, for
the non-terminal `/fold` leaf (`isterminal = True`) initialization does not
produce a slash-terminated mapping at all: it raises `TypeError`, since the
swap passes the bool `True` as the `optparams` argument and `Mapping.__init__`
iterates it. -/
theorem trailing_slash_swap_eval :
    (∃ d, visit wLeaf [.fixed "wopts".toList] [] = .ok [d] ∧
      d.isterminal = false ∧ d.resid = "@@W".toList) ∧
    (∃ u, initializeM ⟨none, []⟩ wTree = .ok u ∧
      mapurlU u "@@W".toList [] [] = .ok "/wopts/".toList) ∧
    (∃ d, visit foldLeaf [.fixed "fold".toList] [] = .ok (d :: [⟨"@@G".toList,
        [.fixed "fold".toList, .fixed "greed".toList], [], false⟩]) ∧
      d.isterminal = true ∧ d.resid = "@@Fold".toList) ∧
    initializeM ⟨none, []⟩ foldTree = .error .typeError := by
  refine ⟨⟨_, rfl, rfl, rfl⟩, ⟨_, rfl, rfl⟩, ⟨_, rfl, rfl, rfl⟩, rfl⟩

/-! ## Claim theorems: variable-name collision (C6) -/

/-- **C6** (evaluation at the failing input): compiling a `Mapping` whose path
variable `x` collides with an inherited optional parameter `x` does not raise
the variable-collision construction error — it raises `TypeError` from the
optional-parameter dict construction (`x[0]` on an `OptParam`), exactly as it
does for a non-colliding optional parameter `y`, so no collision check against
optional parameters ever runs.  A name repeated between two path variables, in
contrast, does raise the `RanvierError` collision error. -/
theorem optparam_collision_not_detected_eval :
    mappingInit "@@X".toList ([], [], false, [.var "x".toList none], [], [])
      (.boolD false) (.listD [⟨"x".toList, none⟩]) = .error .typeError ∧
    mappingInit "@@Y".toList ([], [], false, [.var "x".toList none], [], [])
      (.boolD false) (.listD [⟨"y".toList, none⟩]) = .error .typeError ∧
    (∃ msg, mappingInit "@@Z".toList
      ([], [], false, [.var "x".toList none, .fixed "d".toList, .var "x".toList none],
        [], []) (.boolD false) .noneD = .error (.ranvier msg) ∧
      List.IsInfix "collision".toList msg) := by
  refine ⟨rfl, rfl, _, rfl, ?_⟩
  exact ⟨"Variable name ".toList,
    " in URI path: ".toList ++ sq :: ("x".toList ++ [sq]), by decide⟩

/-! ## Claim theorems: root-location handling in `handle_request` (C8) -/

/-- **C8** (evaluation): with root location `/demo`, a URI outside it is
rejected with `RanvierError` naming the root location — that half of the claim
holds — but for a URI under the root location `handle_request` raises
`TypeError` instead of dispatching: after stripping the prefix it calls
`HandlerContext(method, uri, args, rootloc)`, four positional arguments
against `HandlerContext.__init__(self, uri, args, rootloc=None)`.  The third
conjunct shows the locator the three-argument constructor would have built
from the stripped URI. -/
theorem handle_request_rootloc_eval :
    (∃ msg, handleRequestStart ⟨some "/demo".toList, []⟩ "GET".toList
        "/elsewhere/x".toList [] = .error (.ranvier msg) ∧
      List.IsInfix "/demo".toList msg ∧ List.IsInfix "/elsewhere/x".toList msg) ∧
    handleRequestStart ⟨some "/demo".toList, []⟩ "GET".toList "/demo/home".toList []
      = .error .typeError ∧
    (handlerContextInit3 "/home".toList [] (some "/demo".toList)).locator =
      ⟨some "/demo".toList, ["home".toList], 0, false⟩ := by
  refine ⟨⟨_, rfl, ?_, ?_⟩, rfl, by decide⟩
  · exact ⟨"Error: Incorrect root location ".toList ++ [sq],
      sq :: (" for requested URI ".toList ++ sq :: ("/elsewhere/x".toList ++ [sq, '.'])), rfl⟩
  · exact ⟨"Error: Incorrect root location ".toList ++ sq :: ("/demo".toList ++
      (sq :: " for requested URI ".toList ++ [sq])), [sq, '.'], by decide⟩

/-! ## Claim theorems: initialize/mapurl/match round trip (C1) -/

theorem caps_map_expected (f : Str → PyVal) (fmts : List (Str × Option Str)) :
    ∀ (vfs : List (Str × Option Str)) (caps : List (Str × Str)),
      List.Forall₂ (CapCoerce f) vfs caps →
      (∀ vf ∈ vfs, alookup vf.1 fmts = some vf.2) →
      caps.map (fun p => (p.1, coerceMatch (alookup p.1 fmts) p.2)) =
        vfs.map (fun vf => (vf.1, asMatched (f vf.1))) := by
  intro vfs caps h
  induction h with
  | nil => intro _; rfl
  | cons hR hrest ih =>
    rename_i vf cap vfs2 caps2
    intro hlk
    simp only [List.map_cons]
    rw [ih (fun w hw => hlk w (List.mem_cons_of_mem _ hw))]
    obtain ⟨h1, h2⟩ := hR
    rw [h1, hlk vf (List.mem_cons_self _ _), h2]

/-- The match side of the round trip: the URL that `_render` builds from
`CompSeg`-related segments is split back to itself, matched by the compiled
pattern, and coerced to exactly the argument values, one entry per positional
variable in declaration order. -/
theorem render_match_core (m : Mapping) (R : Option Str) (f : Str → PyVal)
    (segs : List Str)
    (hroot : wfRootloc R)
    (habs : m.absolute = false)
    (hpre : m.pre = (([] : Str), ([] : Str)))
    (hsuf : m.suf = (([] : Str), ([] : Str)))
    (hfmts : m.formats = varFmts m.components)
    (hnd : (varNames m.components).Nodup)
    (hargs : ∀ c ∈ m.components, CompValid f c)
    (hf2 : List.Forall₂ (CompSeg f) m.components segs) :
    matchUrl m R (m.renderWith (joinSlash segs) R) =
      .ok (some ((varFmts m.components).map (fun vf => (vf.1, asMatched (f vf.1))))) := by
  have hsegsfacts : ∀ s ∈ segs, s ≠ [] ∧ ∀ ch ∈ s, ch ≠ '/' ∧ ch ≠ '?' ∧ ch ≠ '#' := by
    intro s hs
    obtain ⟨c, _, hcs⟩ := forall2_right_mem hf2 s hs
    exact compSeg_wf f c s hcs
  have hcase : (R.getD [] ++ '/' :: joinSlash segs = ['/'] ∧ segs = []) ∨
      (∃ ch r2, R.getD [] ++ '/' :: joinSlash segs = '/' :: ch :: r2 ∧ ch ≠ '/') := by
    rcases R with _ | r
    · cases hsegs : segs with
      | nil => left; exact ⟨rfl, rfl⟩
      | cons s0 ss0 =>
        right
        obtain ⟨hne, hch⟩ := hsegsfacts s0 (by rw [hsegs]; simp)
        obtain ⟨c0, s1, hs0⟩ : ∃ c0 s1, s0 = c0 :: s1 := by
          cases s0 with
          | nil => exact absurd rfl hne
          | cons a b => exact ⟨a, b, rfl⟩
        obtain ⟨t, ht⟩ := hjoin_cons s0 ss0
        refine ⟨c0, s1 ++ t, ?_, (hch c0 (by rw [hs0]; simp)).1⟩
        rw [ht, hs0]
        simp
    · obtain ⟨c, rest, hr, hlitc, _⟩ := hroot
      right
      refine ⟨c, rest ++ '/' :: joinSlash segs, ?_, (litCh_safe c hlitc).1⟩
      simp [hr]
  have hfirstsafe : ∀ ch ∈ R.getD ([] : Str), ch = '/' ∨ litCh ch = true := by
    rcases R with _ | r
    · intro ch hch; simp at hch
    · obtain ⟨c, rest, hr, hlitc, hrest⟩ := hroot
      intro ch hch
      simp only [Option.getD_some] at hch
      rw [hr] at hch
      rcases List.mem_cons.mp hch with h | h
      · left; exact h
      · rcases List.mem_cons.mp h with h | h
        · right; rw [h]; exact hlitc
        · rcases hrest ch h with h2 | h2
          · right; exact h2
          · left; exact h2
  obtain ⟨tail, htaildef⟩ : ∃ t, (if m.isterminal.truthy &&
      !((R.getD [] ++ '/' :: joinSlash segs).getLast? = some '/') then
        (['/'] : Str) else []) = t := ⟨_, rfl⟩
  have htail : tail = [] ∨ tail = ['/'] := by
    rw [← htaildef]
    split
    · right; rfl
    · left; rfl
  have htail0 : segs = [] → tail = [] := by
    intro hs
    rw [← htaildef, hs]
    have hlastp : (R.getD ([] : Str) ++ '/' :: joinSlash []).getLast? = some '/' := by
      show (R.getD ([] : Str) ++ ['/']).getLast? = some '/'
      exact List.getLast?_concat _
    rw [hlastp]
    simp
  have htake2 : ((R.getD ([] : Str) ++ '/' :: joinSlash segs) ++ tail).take 2 ≠
      ['/', '/'] := by
    rcases hcase with ⟨h0, hs0⟩ | ⟨ch, r2, h0, hch⟩
    · rw [h0, htail0 hs0]; decide
    · rw [h0]
      simp only [List.cons_append, List.take_succ_cons, List.take_zero]
      intro hcon
      simp only [List.cons.injEq, and_true] at hcon
      exact hch hcon.2
  have hhead : ((R.getD ([] : Str) ++ '/' :: joinSlash segs) ++ tail).head? =
      some '/' := by
    rcases hcase with ⟨h0, _⟩ | ⟨ch, r2, h0, _⟩
    · rw [h0]; rfl
    · rw [h0]; rfl
  have hsafe : ∀ ch, ch ∈ (R.getD ([] : Str) ++ '/' :: joinSlash segs) ++ tail →
      ch ≠ '?' ∧ ch ≠ '#' := by
    intro ch hch
    rcases List.mem_append.mp hch with hch | hch
    · rcases List.mem_append.mp hch with hch | hch
      · rcases hfirstsafe ch hch with h | h
        · subst h; exact ⟨by decide, by decide⟩
        · exact ⟨(litCh_safe ch h).2.1, (litCh_safe ch h).2.2⟩
      · rcases List.mem_cons.mp hch with h | h
        · subst h; exact ⟨by decide, by decide⟩
        · rcases mem_joinSlash ch segs h with h | ⟨s, hs, hcs⟩
          · subst h; exact ⟨by decide, by decide⟩
          · obtain ⟨_, hwf⟩ := hsegsfacts s hs
            exact ⟨(hwf ch hcs).2.1, (hwf ch hcs).2.2⟩
    · rcases htail with h | h
      · rw [h] at hch; cases hch
      · rw [h] at hch
        have h2 := List.mem_singleton.mp hch
        subst h2
        exact ⟨by decide, by decide⟩
  have hsplit : urlsplit ((R.getD ([] : Str) ++ '/' :: joinSlash segs) ++ tail) =
      ([], [], (R.getD ([] : Str) ++ '/' :: joinSlash segs) ++ tail, [], []) :=
    urlsplit_plain _ hhead htake2 (fun c hc => (hsafe c hc).1)
      (fun c hc => (hsafe c hc).2)
  have hrw : m.renderWith (joinSlash segs) R =
      (R.getD ([] : Str) ++ '/' :: joinSlash segs) ++ tail := by
    rw [← htaildef]
    simp only [Mapping.renderWith, habs, hpre, hsuf, Bool.true_and,
      Bool.false_eq_true, if_false]
    cases hb : m.isterminal.truthy &&
        !((R.getD ([] : Str) ++ '/' :: joinSlash segs).getLast? = some '/') with
    | true =>
      rw [if_pos rfl, if_pos rfl]
      refine urlunsplit_plain _ ?_
      rcases hcase with ⟨h0, _⟩ | ⟨ch, r2, h0, hch⟩
      · rw [h0] at hb
        simp at hb
      · rw [h0]
        simp only [List.cons_append, List.take_succ_cons, List.take_zero]
        intro hcon
        simp only [List.cons.injEq, and_true] at hcon
        exact hch hcon.2
    | false =>
      rw [if_neg (by decide), if_neg (by decide)]
      rw [List.append_nil]
      refine urlunsplit_plain _ ?_
      rcases hcase with ⟨h0, _⟩ | ⟨ch, r2, h0, hch⟩
      · rw [h0]; decide
      · rw [h0]
        simp only [List.take_succ_cons, List.take_zero]
        intro hcon
        simp only [List.cons.injEq, and_true] at hcon
        exact hch hcon.2
  have hclassed : compsClassed m.components = true := by
    simp only [compsClassed, List.all_eq_true]
    intro c hc
    cases c with
    | fixed n => rfl
    | var v fmt =>
      obtain ⟨tok, _, _, _, ⟨cls, hcls, _, _⟩, _⟩ :=
        compValid_var_facts v fmt f (hargs _ hc)
      simp [hcls]
  have hlast : ¬ (m.components.getLast? = some (.fixed [])) := by
    intro hcon
    have hmem := getLast?_mem _ _ hcon
    obtain ⟨h1, _⟩ := hargs _ hmem
    exact h1 rfl
  have hmre : m.matchRegexp R ((R.getD ([] : Str) ++ '/' :: joinSlash segs) ++ tail) =
      matchComps m.components (('/' :: joinSlash segs) ++ tail) := by
    simp only [Mapping.matchRegexp]
    rw [if_neg (by rw [hclassed]; decide)]
    rw [if_neg (by simp [hpre, hsuf])]
    rw [if_neg hlast]
    simp only [habs, Bool.false_eq_true, if_false]
    rw [List.append_assoc, litConsume_append]
  have hmc : ∃ caps, matchComps m.components (('/' :: joinSlash segs) ++ tail) =
      .ok (some caps) ∧ List.Forall₂ (CapCoerce f) (varFmts m.components) caps := by
    cases hsegs : segs with
    | nil =>
      rw [hsegs] at hf2
      have hcomps0 : m.components = [] := List.forall₂_nil_right_iff.mp hf2
      refine ⟨[], ?_, by rw [hcomps0]; simp [varFmts]⟩
      rw [hcomps0, htail0 hsegs]
      rfl
    | cons s0 ss0 =>
      rw [hsegs] at hf2
      rw [preSlash_eq_joinSlash]
      exact matchComps_of_segs f m.components (s0 :: ss0) tail hf2 htail
  have hndf : ((varFmts m.components).map Prod.fst).Nodup := by
    rw [varFmts_keys]; exact hnd
  have hlkf : ∀ vf ∈ varFmts m.components, alookup vf.1 m.formats = some vf.2 := by
    intro vf hvf
    rw [hfmts]
    refine alookup_of_mem_nodup _ hndf vf.1 vf.2 ?_
    obtain ⟨a, b⟩ := vf
    exact hvf
  obtain ⟨caps, hcm, hcc⟩ := hmc
  rw [hrw]
  simp only [matchUrl, hsplit, hmre, hcm, exc_bind_ok, Except.ok.injEq,
    Option.some.injEq]
  exact caps_map_expected f m.formats (varFmts m.components) caps hcc hlkf

/-- **C1**: initialize the mapper from any resource tree under a well-formed
root location, pick any registered resource-id and any assignment of valid
values to that mapping's positional variables (strings for plain/`s`
variables, non-negative integers for zero-padded `d` variables); then
`mapurl` with those values succeeds, and `match` on the URL it produces
succeeds and returns exactly the values used to render — one entry per
declared positional variable in declaration order, across fixed, variable and
formatted segments. -/
theorem initialize_mapurl_match_roundtrip (t : ResTree) (R : Option Str)
    (u : UrlMapperS) (rid : Str) (m : Mapping) (f : Str → PyVal)
    (hroot : wfRootloc R)
    (hinit : initializeM ⟨R, []⟩ t = .ok u)
    (hmem : alookup rid u.mappings = some m)
    (hargs : ∀ c ∈ m.components, CompValid f c) :
    ∃ url, mapurl m [] (m.positional.map (fun v => (v, f v))) R = .ok url ∧
      matchUrl m R url = .ok (some ((varFmts m.components).map
        (fun vf => (vf.1, asMatched (f vf.1))))) := by
  obtain ⟨p, hmi⟩ := initializeM_lookup t R u hinit rid m hmem
  obtain ⟨hresid, hpre, hsuf, habs, hcomps, hit, hposl, hvdl, hfmtsl, hnodup⟩ :=
    mappingInit_ok _ _ _ _ _ _ _ _ _ _ hmi
  rw [← hcomps] at hposl hvdl hfmtsl hnodup
  have hp : ∀ v ∈ varNames m.components,
      alookup v (m.positional.map (fun v => (v, f v))) = some (f v) := by
    intro v hv
    exact alookup_map_self f m.positional v (by rw [hposl]; exact hv)
  obtain ⟨segs, hsub, hf2⟩ :=
    substTyped_segs f (m.positional.map (fun v => (v, f v))) m.components hargs hp
  have hvd2 : m.vardict = m.positional.map (fun v => (v, none)) := by
    rw [hvdl, hposl]
  have hnd2 : m.positional.Nodup := by rw [hposl]; exact hnodup
  have hrender : m.render (m.positional.map (fun v => (v, f v))) R =
      .ok (m.renderWith (joinSlash segs) R) := by
    simp only [Mapping.render, hsub, exc_bind_ok]
  refine ⟨m.renderWith (joinSlash segs) R, ?_, ?_⟩
  · rw [mapurl_fill m f R hvd2 hnd2, hrender]
  · exact render_match_core m R f segs hroot habs hpre hsuf hfmtsl hnodup hargs hf2

/-- The one-leaf demo tree for the round trip: `/users/(uid%08d)`. -/
def rtTree : ResTree :=
  .node "@@Root".toList [.branchStatic "users".toList
    (.node "UserPage".toList [.declareTarget (some "uid".toList) (some "08d".toList)])]

/-- The value assignment for the round-trip witness. -/
def rtF : Str → PyVal := fun _ => .int 1042

/-- The mapping that initializing from `rtTree` registers under `UserPage`. -/
def rtMapping : Mapping :=
  { pre := ([], []), suf := ([], []), absolute := false,
    components := [.fixed "users".toList, .var "uid".toList (some "08d".toList)],
    resid := "UserPage".toList, isterminal := .listD [], optparams := [],
    urltmpl := "users/%(uid)08d".toList,
    urltmplUntyped := "users/%(uid)s".toList,
    positional := ["uid".toList],
    vardict := [("uid".toList, none)],
    formats := [("uid".toList, some "08d".toList)] }

/-- The mapper state produced by initializing from `rtTree` under `/demo`. -/
def rtU : UrlMapperS :=
  ⟨some "/demo".toList, [("UserPage".toList, rtMapping)]⟩

theorem initialize_mapurl_match_roundtrip_witness :
    initializeM ⟨some "/demo".toList, []⟩ rtTree = .ok rtU ∧
    alookup "UserPage".toList rtU.mappings = some rtMapping ∧
    mapurl rtMapping [] (rtMapping.positional.map (fun v => (v, rtF v)))
      (some "/demo".toList) = .ok "/demo/users/00001042".toList ∧
    matchUrl rtMapping (some "/demo".toList) "/demo/users/00001042".toList =
      .ok (some [("uid".toList, Matched.intM 1042)]) := by
  refine ⟨rfl, rfl, ?_⟩
  have hroot : wfRootloc (some "/demo".toList) :=
    ⟨'d', "emo".toList, rfl, by decide, by decide⟩
  have hargs : ∀ c ∈ rtMapping.components, CompValid rtF c := by
    intro c hc
    rcases List.mem_cons.mp hc with h | h
    · subst h
      exact ⟨by decide, by decide⟩
    · have h2 := List.mem_singleton.mp h
      subst h2
      exact Or.inr ⟨⟨"08d".toList, rfl, rfl, by decide, Or.inr rfl⟩, 1042, rfl⟩
  obtain ⟨url, h1, h2⟩ := initialize_mapurl_match_roundtrip rtTree
    (some "/demo".toList) rtU "UserPage".toList rtMapping rtF hroot rfl rfl hargs
  have hurl : url = "/demo/users/00001042".toList :=
    Except.ok.inj (h1.symm.trans rfl)
  rw [hurl] at h1 h2
  exact ⟨h1, h2.trans rfl⟩

/-! ## Claim C5 infrastructure: serialization round trip -/

/-- The characters a serialized pattern token may contain: literal name
characters plus the variable-placeholder punctuation. -/
def patCh (c : Char) : Bool := litCh c || c = '(' || c = ')' || c = '%'

theorem litCh_lower (c : Char) (h : c.isLower = true) : litCh c = true := by
  simp [litCh, Char.isAlphanum, Char.isAlpha, h]

theorem litCh_digit (c : Char) (h : c.isDigit = true) : litCh c = true := by
  simp [litCh, Char.isAlphanum, h]

theorem litCh_extra (c : Char) (h : litCh c = true) :
    c ≠ ':' ∧ c ≠ '(' ∧ c ≠ ')' ∧ c ≠ '%' ∧ c.isWhitespace = false := by
  refine ⟨?_, ?_, ?_, ?_, ?_⟩
  · rintro rfl
    simp [litCh, Char.isAlphanum, Char.isAlpha, Char.isUpper, Char.isLower,
      Char.isDigit] at h
  · rintro rfl
    simp [litCh, Char.isAlphanum, Char.isAlpha, Char.isUpper, Char.isLower,
      Char.isDigit] at h
  · rintro rfl
    simp [litCh, Char.isAlphanum, Char.isAlpha, Char.isUpper, Char.isLower,
      Char.isDigit] at h
  · rintro rfl
    simp [litCh, Char.isAlphanum, Char.isAlpha, Char.isUpper, Char.isLower,
      Char.isDigit] at h
  · cases hws : c.isWhitespace with
    | false => rfl
    | true =>
      simp only [Char.isWhitespace] at hws
      rcases (by simpa using hws : ((c = ' ' ∨ c = '\t') ∨ c = '\x0d') ∨ c = '\n') with
        ((h2 | h2) | h2) | h2 <;>
        (subst h2; simp [litCh, Char.isAlphanum, Char.isAlpha, Char.isUpper,
          Char.isLower, Char.isDigit] at h)

theorem patCh_safe (c : Char) (h : patCh c = true) :
    c ≠ '/' ∧ c ≠ '?' ∧ c ≠ '#' ∧ c.isWhitespace = false := by
  simp only [patCh, Bool.or_eq_true] at h
  rcases h with ((h | h) | h) | h
  · exact ⟨(litCh_safe c h).1, (litCh_safe c h).2.1, (litCh_safe c h).2.2,
      (litCh_extra c h).2.2.2.2⟩
  · rw [decide_eq_true_eq] at h
    subst h
    exact ⟨by decide, by decide, by decide, by decide⟩
  · rw [decide_eq_true_eq] at h
    subst h
    exact ⟨by decide, by decide, by decide, by decide⟩
  · rw [decide_eq_true_eq] at h
    subst h
    exact ⟨by decide, by decide, by decide, by decide⟩

theorem contains_eq_false_of (l : Str) (a : Char) (h : ∀ c ∈ l, c ≠ a) :
    l.contains a = false := by
  induction l with
  | nil => rfl
  | cons c cs ih =>
    rw [List.contains_cons]
    have hc : (a == c) = false := by
      simp only [beq_eq_false_iff_ne, ne_eq]
      exact fun hcon => h c (by simp) hcon.symm
    rw [hc, Bool.false_or]
    exact ih (fun d hd => h d (by simp [hd]))

theorem splitC_append (sep : Char) : ∀ (a b : Str),
    splitC sep (a ++ sep :: b) = splitC sep a ++ splitC sep b := by
  intro a b
  induction a with
  | nil =>
    show splitC sep (sep :: b) = [[]] ++ splitC sep b
    simp [splitC]
  | cons c a2 ih =>
    show splitC sep (c :: (a2 ++ sep :: b)) = splitC sep (c :: a2) ++ splitC sep b
    by_cases hc : c = sep
    · simp only [splitC, if_pos hc, ih, List.cons_append]
    · simp only [splitC, if_neg hc, ih]
      cases hs : splitC sep a2 with
      | nil =>
        exfalso
        have : splitC sep a2 ≠ [] := by
          cases a2 with
          | nil => simp [splitC]
          | cons d ds =>
            simp only [splitC]
            split
            · simp
            · split <;> simp
        exact this hs
      | cons s ss => simp

theorem splitC_no_sep (sep : Char) : ∀ (s : Str), (∀ c ∈ s, c ≠ sep) →
    splitC sep s = [s] := by
  intro s h
  induction s with
  | nil => rfl
  | cons c cs ih =>
    simp only [splitC, if_neg (h c (by simp))]
    rw [ih (fun d hd => h d (by simp [hd]))]

theorem splitC_joinSlash : ∀ (toks : List Str), toks ≠ [] →
    (∀ t ∈ toks, ∀ c ∈ t, c ≠ '/') →
    splitC '/' (joinSlash toks) = toks := by
  intro toks
  induction toks with
  | nil => intro h _; exact absurd rfl h
  | cons t ts ih =>
    intro _ h
    cases ts with
    | nil =>
      show splitC '/' t = [t]
      exact splitC_no_sep '/' t (h t (by simp))
    | cons t2 ts2 =>
      show splitC '/' (t ++ '/' :: joinSlash (t2 :: ts2)) = t :: t2 :: ts2
      rw [splitC_append]
      rw [splitC_no_sep '/' t (h t (by simp))]
      rw [ih (by simp) (fun s hs c hc => h s (by simp [hs]) c hc)]
      rfl

theorem joinSlash_splitC (sep : Char) (hsep : sep = '/') : ∀ (s : Str),
    joinSlash (splitC sep s) = s := by
  subst hsep
  intro s
  induction s with
  | nil => rfl
  | cons c cs ih =>
    by_cases hc : c = '/'
    · subst hc
      show joinSlash ([] :: splitC '/' cs) = '/' :: cs
      cases hs : splitC '/' cs with
      | nil =>
        exfalso
        cases cs with
        | nil => simp [splitC] at hs
        | cons d ds =>
          simp only [splitC] at hs
          revert hs
          split
          · simp
          · split <;> simp
      | cons s ss =>
        show ([] : Str) ++ '/' :: joinSlash (s :: ss) = '/' :: cs
        rw [← hs, ih]
        rfl
    · simp only [splitC, if_neg hc]
      cases hs : splitC '/' cs with
      | nil =>
        exfalso
        cases cs with
        | nil => simp [splitC] at hs
        | cons d ds =>
          simp only [splitC] at hs
          revert hs
          split
          · simp
          · split <;> simp
      | cons s ss =>
        show joinSlash ((c :: s) :: ss) = c :: cs
        rw [← ih, hs]
        cases ss with
        | nil => rfl
        | cons s2 ss2 => rfl

theorem mem_splitC (sep : Char) : ∀ (s : Str) (t : Str), t ∈ splitC sep s →
    ∀ c ∈ t, c ∈ s ∧ c ≠ sep := by
  intro s
  induction s with
  | nil =>
    intro t ht c hc
    simp only [splitC, List.mem_singleton] at ht
    subst ht
    cases hc
  | cons d ds ih =>
    intro t ht c hc
    by_cases hd : d = sep
    · rw [show splitC sep (d :: ds) = [] :: splitC sep ds from by
        simp [splitC, hd]] at ht
      rcases List.mem_cons.mp ht with h | h
      · subst h; cases hc
      · obtain ⟨h1, h2⟩ := ih t h c hc
        exact ⟨by simp [h1], h2⟩
    · simp only [splitC, if_neg hd] at ht
      cases hs : splitC sep ds with
      | nil =>
        rw [hs] at ht
        have ht2 : t = [d] := by simpa using ht
        subst ht2
        have hc2 : c = d := by simpa using hc
        subst hc2
        exact ⟨by simp, hd⟩
      | cons s ss =>
        rw [hs] at ht
        rcases List.mem_cons.mp ht with h | h
        · subst h
          rcases List.mem_cons.mp hc with h2 | h2
          · subst h2; exact ⟨by simp, hd⟩
          · obtain ⟨h3, h4⟩ := ih s (by rw [hs]; simp) c h2
            exact ⟨by simp [h3], h4⟩
        · obtain ⟨h3, h4⟩ := ih t (by rw [hs]; simp [h]) c hc
          exact ⟨by simp [h3], h4⟩

theorem joinSlash_append : ∀ (a b : List Str), a ≠ [] → b ≠ [] →
    joinSlash (a ++ b) = joinSlash a ++ '/' :: joinSlash b := by
  intro a b ha hb
  induction a with
  | nil => exact absurd rfl ha
  | cons t ts ih =>
    cases ts with
    | nil =>
      cases b with
      | nil => exact absurd rfl hb
      | cons b0 bs => rfl
    | cons t2 ts2 =>
      show joinSlash (t :: (t2 :: ts2 ++ b)) = (t ++ '/' :: joinSlash (t2 :: ts2)) ++
        '/' :: joinSlash b
      rw [show joinSlash (t :: (t2 :: ts2 ++ b)) =
          t ++ '/' :: joinSlash (t2 :: ts2 ++ b) from rfl]
      rw [ih (by simp)]
      simp

theorem getLast?_joinSlash : ∀ (toks : List Str) (t : Str) (d : Char),
    toks.getLast? = some t → t.getLast? = some d →
    (joinSlash toks).getLast? = some d := by
  intro toks
  induction toks with
  | nil => intro t d h _; cases h
  | cons x ts ih =>
    intro t d hlast hd
    cases ts with
    | nil =>
      simp only [List.getLast?_singleton, Option.some.injEq] at hlast
      subst hlast
      exact hd
    | cons y ts2 =>
      rw [List.getLast?_cons_cons] at hlast
      have hj := ih t d hlast hd
      show (x ++ '/' :: joinSlash (y :: ts2)).getLast? = some d
      rw [List.getLast?_append]
      have hne : joinSlash (y :: ts2) ≠ [] := by
        intro hcon
        rw [hcon] at hj
        cases hj
      obtain ⟨c0, j2, hj2⟩ : ∃ c0 j2, joinSlash (y :: ts2) = c0 :: j2 := by
        cases hjs : joinSlash (y :: ts2) with
        | nil => exact absurd hjs hne
        | cons c0 j2 => exact ⟨c0, j2, rfl⟩
      rw [hj2]
      rw [hj2] at hj
      rw [show ('/' :: (c0 :: j2)).getLast? = (c0 :: j2).getLast? from
        List.getLast?_cons_cons]
      rw [hj]
      rfl

theorem takeWhile_stop (p : Char → Bool) (tok : Str) (d : Char) (rest : Str)
    (htok : ∀ c ∈ tok, p c = true) (hd : p d = false) :
    (tok ++ d :: rest).takeWhile p = tok ∧
    (tok ++ d :: rest).dropWhile p = d :: rest := by
  constructor
  · rw [List.takeWhile_append_of_pos htok]
    simp [List.takeWhile_cons, hd]
  · rw [List.dropWhile_append_of_pos htok]
    simp [List.dropWhile_cons, hd]

theorem varname_chars (v : Str) (h : varnameOk v = true) :
    ∀ c ∈ v, litCh c = true ∧ c ≠ '%' ∧ c ≠ '(' ∧ c ≠ ')' := by
  cases v with
  | nil => simp [varnameOk] at h
  | cons c0 rest =>
    simp only [varnameOk, Bool.and_eq_true, List.all_eq_true] at h
    obtain ⟨h0, hr⟩ := h
    intro c hc
    have hlit : litCh c = true := by
      rcases List.mem_cons.mp hc with h2 | h2
      · subst h2; exact litCh_lower c h0
      · rcases (by simpa using hr c h2 : c.isLower = true ∨ c = '_') with h3 | h3
        · exact litCh_lower c h3
        · subst h3; decide
    have hx := litCh_extra c hlit
    exact ⟨hlit, hx.2.2.2.1, hx.2.1, hx.2.2.1⟩

theorem varfmt_chars (s : Str) (h : varfmtOk s = true) :
    s ≠ [] ∧ ∀ c ∈ s, litCh c = true ∧ c ≠ '%' ∧ c ≠ '(' ∧ c ≠ ')' := by
  simp only [varfmtOk, Bool.and_eq_true, List.all_eq_true] at h
  obtain ⟨hne, hall⟩ := h
  refine ⟨by simpa using hne, ?_⟩
  intro c hc
  have hlit : litCh c = true := by
    rcases (by simpa using hall c hc :
        (c.isLower = true ∨ c.isDigit = true) ∨ c = '-') with (h2 | h2) | h2
    · exact litCh_lower c h2
    · exact litCh_digit c h2
    · subst h2; decide
  have hx := litCh_extra c hlit
  exact ⟨hlit, hx.2.2.2.1, hx.2.1, hx.2.2.1⟩

theorem compreM_not_paren (tok : Str) (h : tok.head? ≠ some '(') :
    compreM tok = none := by
  rw [compreM.eq_def]
  split
  · rename_i rest
    simp at h
  · rfl

theorem compreM_var (v : Str) (hv : varnameOk v = true) :
    compreM ('(' :: (v ++ [')'])) = some (v, none) := by
  have hch := varname_chars v hv
  rw [show compreM ('(' :: (v ++ [')'])) =
      (if (v ++ [')']).getLast? = some ')' then
        match (v ++ [')']).dropLast.dropWhile (· ≠ '%') with
        | [] =>
          if varnameOk ((v ++ [')']).dropLast.takeWhile (· ≠ '%')) then
            some ((v ++ [')']).dropLast.takeWhile (· ≠ '%'), none)
          else none
        | '%' :: f =>
          if varnameOk ((v ++ [')']).dropLast.takeWhile (· ≠ '%')) && varfmtOk f then
            some ((v ++ [')']).dropLast.takeWhile (· ≠ '%'), some f)
          else none
        | _ => none
      else none) from rfl]
  rw [if_pos (List.getLast?_concat v)]
  simp only [List.dropLast_concat]
  rw [dropWhile_ne_all '%' v (fun c hc => (hch c hc).2.1)]
  rw [takeWhile_ne_all '%' v (fun c hc => (hch c hc).2.1)]
  rw [if_pos hv]

theorem compreM_var_fmt (v fs : Str) (hv : varnameOk v = true)
    (hf : varfmtOk fs = true) :
    compreM ('(' :: ((v ++ '%' :: fs) ++ [')'])) = some (v, some fs) := by
  have hch := varname_chars v hv
  rw [show compreM ('(' :: ((v ++ '%' :: fs) ++ [')'])) =
      (if ((v ++ '%' :: fs) ++ [')']).getLast? = some ')' then
        match ((v ++ '%' :: fs) ++ [')']).dropLast.dropWhile (· ≠ '%') with
        | [] =>
          if varnameOk (((v ++ '%' :: fs) ++ [')']).dropLast.takeWhile (· ≠ '%')) then
            some ((((v ++ '%' :: fs) ++ [')']).dropLast.takeWhile (· ≠ '%')), none)
          else none
        | '%' :: f =>
          if varnameOk (((v ++ '%' :: fs) ++ [')']).dropLast.takeWhile (· ≠ '%')) &&
              varfmtOk f then
            some ((((v ++ '%' :: fs) ++ [')']).dropLast.takeWhile (· ≠ '%')), some f)
          else none
        | _ => none
      else none) from rfl]
  rw [if_pos (List.getLast?_concat _)]
  simp only [List.dropLast_concat]
  have hstop := takeWhile_stop (fun c => decide (c ≠ '%')) v '%' fs
    (fun c hc => by simpa using (hch c hc).2.1) (by decide)
  rw [hstop.1, hstop.2]
  show (if (varnameOk v && varfmtOk fs) = true then some (v, some fs) else none) =
    some (v, some fs)
  rw [hv, hf]
  rfl

theorem parseComp_lit (pat tok : Str) (h : ∀ c ∈ tok, litCh c = true) :
    parseComp pat tok = .ok (.fixed tok) := by
  simp only [parseComp]
  rw [compreM_not_paren tok (by
    cases tok with
    | nil => simp
    | cons c cs =>
      simp only [List.head?_cons, ne_eq, Option.some.injEq]
      exact (litCh_extra c (h c (by simp))).2.1)]
  rw [contains_eq_false_of tok ')' (fun c hc => (litCh_extra c (h c hc)).2.2.1)]
  rw [contains_eq_false_of tok '(' (fun c hc => (litCh_extra c (h c hc)).2.1)]
  rfl

theorem parseComp_var (pat v : Str) (hv : varnameOk v = true) :
    parseComp pat ('(' :: (v ++ [')'])) = .ok (.var v none) := by
  simp only [parseComp]
  rw [compreM_var v hv]
  rfl

theorem parseComp_var_fmt (pat v fs : Str) (hv : varnameOk v = true)
    (hf : varfmtOk fs = true) :
    parseComp pat ('(' :: ((v ++ '%' :: fs) ++ [')'])) = .ok (.var v (some fs)) := by
  simp only [parseComp]
  rw [compreM_var_fmt v fs hv hf]
  obtain ⟨hne, hch⟩ := varfmt_chars fs hf
  simp only [mkVarComponent, stripPercent]
  rw [if_neg (by
    cases fs with
    | nil => exact absurd rfl hne
    | cons c0 rest =>
      simp only [List.head?_cons, Option.some.injEq]
      exact (hch c0 (by simp)).2.1)]

theorem alookup_none_of_not_mem {β : Type} (k : Str) :
    ∀ (l : List (Str × β)), k ∉ l.map Prod.fst → alookup k l = none := by
  intro l
  induction l with
  | nil => intro _; rfl
  | cons p rest ih =>
    intro h
    simp only [List.map_cons, List.mem_cons] at h
    push_neg at h
    have h1 : ¬ (p.1 = k) := fun hcon => h.1 hcon.symm
    simp only [alookup, if_neg h1]
    exact ih h.2

theorem buildVarsAux_of_nodup : ∀ (comps : List Component) (pos : List Str)
    (vd : List (Str × Option PyVal)) (fm : List (Str × Option Str)),
    (∀ v ∈ varNames comps, alookup v vd = none) →
    (varNames comps).Nodup →
    ∃ triple, buildVarsAux comps pos vd fm = .ok triple := by
  intro comps
  induction comps with
  | nil => intro _ _ _ _ _; exact ⟨_, rfl⟩
  | cons c cs ih =>
    intro pos vd fm hnone hnd
    cases c with
    | fixed n =>
      rw [varNames_cons_fixed] at hnone hnd
      exact ih pos vd fm hnone hnd
    | var v f =>
      rw [varNames_cons_var] at hnone hnd
      have hv : alookup v vd = none := hnone v (by simp)
      show ∃ t, buildVarsAux (.var v f :: cs) pos vd fm = .ok t
      simp only [buildVarsAux, hv, Option.isSome_none, Bool.false_eq_true, if_false]
      refine ih (pos ++ [v]) (vd ++ [(v, none)]) (fm ++ [(v, f)]) ?_
        (List.nodup_cons.mp hnd).2
      intro w hw
      rw [alookup_append_left w vd _ (hnone w (by simp [hw]))]
      have hwv : v ≠ w := fun hcon => (List.nodup_cons.mp hnd).1 (hcon ▸ hw)
      simp [alookup, hwv]

theorem mappingInit_of_nodup (resid scheme netloc : Str) (abs : Bool)
    (comps : List Component) (q fr : Str) (it : Dyn)
    (hnd : (varNames comps).Nodup) :
    ∃ m2, mappingInit resid (scheme, netloc, abs, comps, q, fr) it .noneD = .ok m2 := by
  obtain ⟨triple, hbv⟩ := buildVarsAux_of_nodup comps [] [] [] (fun _ _ => rfl) hnd
  obtain ⟨P, V, F⟩ := triple
  have hmi : mappingInit resid (scheme, netloc, abs, comps, q, fr) it .noneD =
      .ok { pre := (scheme, netloc), suf := (q, fr), absolute := abs,
            components := comps, resid := resid, isterminal := it,
            optparams := [], urltmpl := joinSlash (comps.map typedToken),
            urltmplUntyped := joinSlash (comps.map untypedToken),
            positional := P, vardict := V, formats := F } := by
    simp only [mappingInit, processOptparams, exc_bind_ok, hbv]
  exact ⟨_, hmi⟩

theorem renderWith_eq_cases (m : Mapping) (sub first : Str) (R : Option Str) (b : Bool)
    (hfirst : (if m.absolute then [] else R.getD ([] : Str)) = first)
    (hpre : m.pre = (([] : Str), ([] : Str)))
    (hsuf : m.suf = (([] : Str), ([] : Str)))
    (hcond : (m.isterminal.truthy && !((first ++ '/' :: sub).getLast? = some '/')) = b)
    (htk : ((first ++ '/' :: sub) ++ (if b then ['/'] else [])).take 2 ≠ ['/', '/']) :
    m.renderWith sub R = (first ++ '/' :: sub) ++ (if b then ['/'] else []) := by
  simp only [Mapping.renderWith, hpre, hsuf, Bool.true_and, hfirst]
  rw [hcond]
  cases b with
  | true =>
    rw [if_pos rfl, if_pos rfl]
    exact urlunsplit_plain _ (by simpa using htk)
  | false =>
    rw [if_neg (by decide), if_neg (by decide)]
    rw [List.append_nil]
    exact urlunsplit_plain _ (by simpa using htk)

/-- A component that serializes and reparses: literal fixed names, and
variables whose names fit the `compre` name class with a format that is
either not truthy (renders as `(name)`) or fits the `compre` format class. -/
def WfComp : Component → Prop
  | .fixed n => n ≠ [] ∧ ∀ c ∈ n, litCh c = true
  | .var v f => varnameOk v = true ∧
      (fmtTruthy f = false ∨ ∃ fs, f = some fs ∧ varfmtOk fs = true)

/-- A mapping the table serialization round trip covers: no scheme, netloc,
query or fragment, a literal non-empty resource-id, a non-empty component
list of well-formed components, and no variable-name collisions. -/
def WfSer (m : Mapping) : Prop :=
  m.pre = (([] : Str), ([] : Str)) ∧ m.suf = (([] : Str), ([] : Str)) ∧
  m.resid ≠ [] ∧ (∀ c ∈ m.resid, litCh c = true) ∧
  m.components ≠ [] ∧ (∀ c ∈ m.components, WfComp c) ∧
  (varNames m.components).Nodup

theorem replicate_shift (k : Nat) (a : Char) (X : Str) :
    List.replicate k a ++ a :: X = a :: (List.replicate k a ++ X) := by
  induction k with
  | zero => rfl
  | succ n ih => simp only [List.replicate_succ, List.cons_append, ih]

theorem varNames_append (a b : List Component) :
    varNames (a ++ b) = varNames a ++ varNames b := by
  simp [varNames, List.filterMap_append]

theorem varNames_single_decomp (x : Component) (l : List Component) :
    varNames (x :: l) = varNames [x] ++ varNames l := by
  cases x <;> simp [varNames]

theorem patSeg_wf (comp : Component) (h : WfComp comp) :
    patSeg comp ≠ [] ∧ ∀ c ∈ patSeg comp, patCh c = true := by
  cases comp with
  | fixed n =>
    obtain ⟨h1, h2⟩ := h
    refine ⟨by simpa [patSeg] using h1, ?_⟩
    intro c hc
    simp only [patSeg] at hc
    simp [patCh, h2 c hc]
  | var v f =>
    obtain ⟨hv, hf⟩ := h
    rcases hf with hftr | ⟨fs, hfs, hfsok⟩
    · rw [show patSeg (.var v f) = '(' :: (v ++ [')']) from by simp [patSeg, hftr]]
      refine ⟨by simp, ?_⟩
      intro c hc
      rcases List.mem_cons.mp hc with h2 | h2
      · subst h2; decide
      · rcases List.mem_append.mp h2 with h3 | h3
        · simp [patCh, (varname_chars v hv c h3).1]
        · have h4 : c = ')' := by simpa using h3
          subst h4; decide
    · subst hfs
      have htr : fmtTruthy (some fs) = true := by
        simp [fmtTruthy, (varfmt_chars fs hfsok).1]
      rw [show patSeg (.var v (some fs)) = '(' :: ((v ++ '%' :: fs) ++ [')']) from by
        simp [patSeg, htr]]
      refine ⟨by simp, ?_⟩
      intro c hc
      rcases List.mem_cons.mp hc with h2 | h2
      · subst h2; decide
      · rcases List.mem_append.mp h2 with h3 | h3
        · rcases List.mem_append.mp h3 with h4 | h4
          · simp [patCh, (varname_chars v hv c h4).1]
          · rcases List.mem_cons.mp h4 with h5 | h5
            · subst h5; decide
            · simp [patCh, ((varfmt_chars fs hfsok).2 c h5).1]
        · have h4 : c = ')' := by simpa using h3
          subst h4; decide

theorem reparse_comps (pat : Str) : ∀ (comps : List Component),
    (∀ c ∈ comps, WfComp c) →
    ∃ comps2, (comps.map patSeg).mapM (parseComp pat) = .ok comps2 ∧
      comps2.map patSeg = comps.map patSeg ∧ varNames comps2 = varNames comps := by
  intro comps
  induction comps with
  | nil => intro _; exact ⟨[], rfl, rfl, rfl⟩
  | cons c cs ih =>
    intro h
    obtain ⟨cs2, hcs2, hps, hvn⟩ := ih (fun d hd => h d (by simp [hd]))
    have hc := h c (by simp)
    have hhead : ∃ c2, parseComp pat (patSeg c) = .ok c2 ∧ patSeg c2 = patSeg c ∧
        varNames [c2] = varNames [c] := by
      cases c with
      | fixed n =>
        obtain ⟨h1, h2⟩ := hc
        exact ⟨.fixed n, parseComp_lit pat n h2, rfl, rfl⟩
      | var v f =>
        obtain ⟨hv, hf⟩ := hc
        rcases hf with hftr | ⟨fs, hfs, hfsok⟩
        · refine ⟨.var v none, ?_, ?_, rfl⟩
          · rw [show patSeg (.var v f) = '(' :: (v ++ [')']) from by
              simp [patSeg, hftr]]
            exact parseComp_var pat v hv
          · rw [show patSeg (.var v f) = '(' :: (v ++ [')']) from by
              simp [patSeg, hftr]]
            rfl
        · subst hfs
          have htr : fmtTruthy (some fs) = true := by
            simp [fmtTruthy, (varfmt_chars fs hfsok).1]
          refine ⟨.var v (some fs), ?_, rfl, rfl⟩
          rw [show patSeg (.var v (some fs)) = '(' :: ((v ++ '%' :: fs) ++ [')']) from by
            simp [patSeg, htr]]
          exact parseComp_var_fmt pat v fs hv hfsok
    obtain ⟨c2, hc2, hpc2, hvc2⟩ := hhead
    refine ⟨c2 :: cs2, ?_, by simp [hpc2, hps], ?_⟩
    · rw [List.map_cons, List.mapM_cons, hc2]
      simp only [exc_bind_ok]
      rw [hcs2]
      simp only [exc_bind_ok]
      rfl
    · rw [varNames_single_decomp c2 cs2, varNames_single_decomp c cs, hvc2, hvn]

theorem reparse_lit_toks (pat : Str) : ∀ (ts : List Str),
    (∀ t ∈ ts, ∀ c ∈ t, litCh c = true) →
    ∃ cs2, ts.mapM (parseComp pat) = .ok cs2 ∧
      cs2.map patSeg = ts ∧ varNames cs2 = [] := by
  intro ts
  induction ts with
  | nil => intro _; exact ⟨[], rfl, rfl, rfl⟩
  | cons t rest ih =>
    intro h
    obtain ⟨cs2, hcs2, hps, hvn⟩ := ih (fun s hs => h s (by simp [hs]))
    refine ⟨.fixed t :: cs2, ?_, by simp [hps, patSeg], ?_⟩
    · rw [List.mapM_cons, parseComp_lit pat t (h t (by simp))]
      simp only [exc_bind_ok]
      rw [hcs2]
      simp only [exc_bind_ok]
      rfl
    · rw [varNames_single_decomp]
      simpa [varNames] using hvn

theorem getLast?_of_ne_nil {α : Type} (l : List α) (h : l ≠ []) :
    ∃ a, l.getLast? = some a := by
  cases hl : l.getLast? with
  | some a => exact ⟨a, rfl⟩
  | none =>
    exfalso
    cases l with
    | nil => exact h rfl
    | cons x xs =>
      rw [List.getLast?_eq_getLast (x :: xs) (by simp)] at hl
      cases hl

theorem strip_of_ends (s : Str) (c0 cl : Char) (h0 : s.head? = some c0)
    (hc0 : c0.isWhitespace = false) (hl : s.getLast? = some cl)
    (hcl : cl.isWhitespace = false) : strip s = s := by
  obtain ⟨rest, hrest⟩ : ∃ rest, s = c0 :: rest := by
    cases s with
    | nil => cases h0
    | cons a r =>
      simp only [List.head?_cons, Option.some.injEq] at h0
      exact ⟨r, by rw [h0]⟩
  have hdw : s.dropWhile Char.isWhitespace = s := by
    rw [hrest]
    simp [List.dropWhile_cons, hc0]
  have hrl : s.reverse.head? = some cl := by
    rw [List.head?_reverse]
    exact hl
  obtain ⟨rr, hrr⟩ : ∃ rr, s.reverse = cl :: rr := by
    cases hrev : s.reverse with
    | nil => rw [hrev] at hrl; cases hrl
    | cons a r =>
      rw [hrev] at hrl
      simp only [List.head?_cons, Option.some.injEq] at hrl
      exact ⟨r, by rw [hrl]⟩
  have hdw2 : s.reverse.dropWhile Char.isWhitespace = s.reverse := by
    rw [hrr]
    simp [List.dropWhile_cons, hcl]
  rw [strip, hdw, hdw2, List.reverse_reverse]

theorem parseLine_render (resid P : Str) (pad : Nat)
    (hres : resid ≠ []) (hresch : ∀ c ∈ resid, litCh c = true)
    (hPhead : P.head? = some '/')
    (hPlast : ∃ cl, P.getLast? = some cl ∧ cl.isWhitespace = false) :
    parseLine (padRight resid pad ++ ' ' :: ':' :: ' ' :: P) = some (resid, P) := by
  obtain ⟨cl, hcl, hclw⟩ := hPlast
  obtain ⟨p0, P1, hP⟩ : ∃ p0 P1, P = p0 :: P1 := by
    cases P with
    | nil => cases hPhead
    | cons a r => exact ⟨a, r, rfl⟩
  have hp0 : p0 = '/' := by
    rw [hP] at hPhead
    simpa using hPhead
  obtain ⟨r0, resid1, hresid⟩ : ∃ r0 resid1, resid = r0 :: resid1 := by
    cases resid with
    | nil => exact absurd rfl hres
    | cons a r => exact ⟨a, r, rfl⟩
  have hline : padRight resid pad ++ ' ' :: ':' :: ' ' :: P =
      resid ++ ' ' :: (List.replicate (pad - resid.length) ' ' ++ ':' :: ' ' :: P) := by
    rw [padRight, List.append_assoc, replicate_shift]
  rw [hline]
  have hr0lit : litCh r0 = true := hresch r0 (by rw [hresid]; simp)
  have hstrip : strip (resid ++ ' ' ::
      (List.replicate (pad - resid.length) ' ' ++ ':' :: ' ' :: P)) =
      resid ++ ' ' :: (List.replicate (pad - resid.length) ' ' ++ ':' :: ' ' :: P) := by
    refine strip_of_ends _ r0 cl ?_ ?_ ?_ hclw
    · rw [hresid]; rfl
    · exact (litCh_extra r0 hr0lit).2.2.2.2
    · rw [List.getLast?_append]
      have h1 : (' ' :: (List.replicate (pad - resid.length) ' ' ++
          ':' :: ' ' :: P)).getLast? = some cl := by
        rw [show (' ' :: (List.replicate (pad - resid.length) ' ' ++
            ':' :: ' ' :: P)) = (' ' :: (List.replicate (pad - resid.length) ' ' ++
            [':', ' '])) ++ P from by simp, List.getLast?_append]
        rw [hcl]
        rfl
      rw [h1]
      rfl
  have hpred : ∀ c ∈ resid, (fun c => !(c = ':' || c.isWhitespace)) c = true := by
    intro c hc
    have hlit := hresch c hc
    simp [(litCh_extra c hlit).1, (litCh_extra c hlit).2.2.2.2]
  have htw := takeWhile_stop (fun c => !(c = ':' || c.isWhitespace)) resid ' '
    (List.replicate (pad - resid.length) ' ' ++ ':' :: ' ' :: P) hpred (by decide)
  have hempty : resid.isEmpty = false := by
    rw [hresid]; rfl
  simp only [parseLine, hstrip, htw.1, hempty, Bool.false_eq_true, if_false]
  rw [show (resid ++ ' ' :: (List.replicate (pad - resid.length) ' ' ++
      ':' :: ' ' :: P)).drop resid.length =
      ' ' :: (List.replicate (pad - resid.length) ' ' ++ ':' :: ' ' :: P) from
    List.drop_left resid _]
  rw [show (' ' :: (List.replicate (pad - resid.length) ' ' ++ ':' :: ' ' :: P)).dropWhile
      Char.isWhitespace = ':' :: ' ' :: P from by
    rw [List.dropWhile_cons]
    simp only [show (' ').isWhitespace = true from by decide, if_true]
    rw [List.dropWhile_append_of_pos (fun a ha => by
      rw [List.eq_of_mem_replicate ha]; decide)]
    rw [List.dropWhile_cons]
    simp]
  show some (resid, (' ' :: P).dropWhile Char.isWhitespace) = some (resid, P)
  rw [show (' ' :: P).dropWhile Char.isWhitespace = P from by
    rw [List.dropWhile_cons]
    simp only [show (' ').isWhitespace = true from by decide, if_true]
    rw [hP, List.dropWhile_cons, hp0]
    simp]

/-- What `loadStep` needs from one serialized line: it is non-empty, parses
into `resid : pattern`, and the pattern compiles into a mapping. -/
def LineRT (line r pat : Str) (m2 : Mapping) : Prop :=
  line.isEmpty = false ∧ parseLine line = some (r, pat) ∧
  ∃ U ist, urlpatternToComponents pat = .ok (U, ist) ∧
    mappingInit r U (.boolD ist) .noneD = .ok m2

theorem reload_aux (m : Mapping) (R : Option Str) (pad : Nat) (S : Str) (d : Char)
    (hres : m.resid ≠ []) (hresch : ∀ c ∈ m.resid, litCh c = true)
    (hP : m.renderPattern R = ('/' :: S) ++ (if m.isterminal.truthy then ['/'] else []))
    (hlast : S.getLast? = some d) (hd : patCh d = true)
    (hhead : ∃ c0, S.head? = some c0 ∧ c0 ≠ '/')
    (hmem : ∀ c ∈ S, c ≠ '?' ∧ c ≠ '#')
    (hparse : ∃ comps2, (splitC '/' S).mapM (parseComp (m.renderPattern R)) = .ok comps2 ∧
        comps2.map patSeg = splitC '/' S ∧ varNames comps2 = varNames m.components)
    (hnd : (varNames m.components).Nodup) :
    ∃ m2, LineRT (padRight m.resid pad ++ ' ' :: ':' :: ' ' :: m.renderPattern R)
        m.resid (m.renderPattern R) m2 ∧
      m2.resid = m.resid ∧ m2.renderPattern none = m.renderPattern R := by
  obtain ⟨c0, hc0, hc0ne⟩ := hhead
  have hSne : S ≠ [] := by
    intro hcon; rw [hcon] at hlast; cases hlast
  obtain ⟨s0, S1, hS⟩ : ∃ s0 S1, S = s0 :: S1 := by
    cases S with
    | nil => exact absurd rfl hSne
    | cons a r => exact ⟨a, r, rfl⟩
  have hs0 : s0 = c0 := by rw [hS] at hc0; simpa using hc0
  obtain ⟨hd1, hd2, hd3, hd4⟩ := patCh_safe d hd
  obtain ⟨r0, resid1, hresid⟩ : ∃ r0 resid1, m.resid = r0 :: resid1 := by
    cases hr : m.resid with
    | nil => exact absurd hr hres
    | cons a r => exact ⟨a, r, rfl⟩
  have hempty : (padRight m.resid pad ++ ' ' :: ':' :: ' ' ::
      m.renderPattern R).isEmpty = false := by
    rw [padRight, hresid]
    rfl
  obtain ⟨comps2, hmm2, hps2, hvn2⟩ := hparse
  cases hb : m.isterminal.truthy with
  | false =>
    rw [hb, if_neg (by decide), List.append_nil] at hP
    have hpl : parseLine (padRight m.resid pad ++ ' ' :: ':' :: ' ' ::
        m.renderPattern R) = some (m.resid, m.renderPattern R) := by
      refine parseLine_render m.resid _ pad hres hresch ?_ ?_
      · rw [hP]; rfl
      · refine ⟨d, ?_, hd4⟩
        rw [hP, hS, List.getLast?_cons_cons, ← hS]
        exact hlast
    have hsplit : urlsplit (m.renderPattern R) = ([], [], m.renderPattern R, [], []) := by
      rw [hP]
      refine urlsplit_plain _ rfl ?_ ?_ ?_
      · rw [hS]
        intro hcon
        simp at hcon
        exact hc0ne (hs0 ▸ hcon)
      · intro c hc
        rcases List.mem_cons.mp hc with h2 | h2
        · subst h2; decide
        · exact (hmem c h2).1
      · intro c hc
        rcases List.mem_cons.mp hc with h2 | h2
        · subst h2; decide
        · exact (hmem c h2).2
    rw [hP] at hmm2
    have hup : urlpatternToComponents (m.renderPattern R) =
        .ok (([], [], true, comps2, [], []), false) := by
      simp only [urlpatternToComponents, hsplit]
      rw [hP, hS]
      simp only [List.head?_cons]
      rw [if_pos trivial]
      simp only [List.drop_succ_cons, List.drop_zero]
      simp only [show (s0 :: S1).getLast? = some d from by rw [← hS]; exact hlast]
      rw [if_neg (show ¬((some d : Option Char) = some '/') from by simp [hd1])]
      simp only [show decide ((some d : Option Char) = some '/') = false from by
        simp [hd1]]
      rw [← hS, hmm2]
      simp only [exc_bind_ok]
      rfl
    obtain ⟨m2, hmi2⟩ := mappingInit_of_nodup m.resid [] [] true comps2 [] []
      (.boolD false) (by rw [hvn2]; exact hnd)
    obtain ⟨hres2, hpre2, hsuf2, habs2, hcomps2, hit2, hpos2, hvd2, hfmt2, hnd2⟩ :=
      mappingInit_ok _ _ _ _ _ _ _ _ _ _ hmi2
    refine ⟨m2, ⟨hempty, hpl, ([], [], true, comps2, [], []), false, hup, hmi2⟩,
      hres2, ?_⟩
    have hsub2 : joinSlash (m2.components.map patSeg) = S := by
      rw [hcomps2, hps2, joinSlash_splitC '/' rfl]
    have hcond2 : (m2.isterminal.truthy &&
        !((([] : Str) ++ '/' :: joinSlash (m2.components.map patSeg)).getLast? =
          some '/')) = false := by
      rw [hit2]
      simp [Dyn.truthy]
    have hrw2 := renderWith_eq_cases m2 (joinSlash (m2.components.map patSeg)) []
      none false (by rw [habs2]; rfl) hpre2 hsuf2 hcond2 (by
        rw [hsub2]
        intro hcon
        rw [hS] at hcon
        simp at hcon
        exact hc0ne (hs0 ▸ hcon))
    show m2.renderWith (joinSlash (m2.components.map patSeg)) none = m.renderPattern R
    rw [hrw2, hsub2, hP]
    simp
  | true =>
    rw [hb, if_pos rfl] at hP
    have hpl : parseLine (padRight m.resid pad ++ ' ' :: ':' :: ' ' ::
        m.renderPattern R) = some (m.resid, m.renderPattern R) := by
      refine parseLine_render m.resid _ pad hres hresch ?_ ?_
      · rw [hP]; rfl
      · refine ⟨'/', ?_, by decide⟩
        rw [hP]
        exact List.getLast?_concat _
    have hsplit : urlsplit (m.renderPattern R) = ([], [], m.renderPattern R, [], []) := by
      rw [hP]
      refine urlsplit_plain _ rfl ?_ ?_ ?_
      · rw [hS]
        intro hcon
        simp at hcon
        exact hc0ne (hs0 ▸ hcon)
      · intro c hc
        rcases List.mem_append.mp hc with h2 | h2
        · rcases List.mem_cons.mp h2 with h3 | h3
          · subst h3; decide
          · exact (hmem c h3).1
        · have h3 : c = '/' := by simpa using h2
          subst h3; decide
      · intro c hc
        rcases List.mem_append.mp hc with h2 | h2
        · rcases List.mem_cons.mp h2 with h3 | h3
          · subst h3; decide
          · exact (hmem c h3).2
        · have h3 : c = '/' := by simpa using h2
          subst h3; decide
    rw [hP] at hmm2
    rw [show ('/' :: S) ++ ['/'] = '/' :: (S ++ ['/']) from rfl] at hmm2
    have hup : urlpatternToComponents (m.renderPattern R) =
        .ok (([], [], true, comps2, [], []), true) := by
      simp only [urlpatternToComponents, hsplit]
      rw [hP]
      rw [show ('/' :: S) ++ ['/'] = '/' :: (S ++ ['/']) from rfl]
      simp only [List.head?_cons]
      rw [if_pos trivial]
      simp only [List.drop_succ_cons, List.drop_zero]
      simp only [List.getLast?_concat]
      rw [if_pos trivial]
      rw [List.dropLast_concat]
      rw [hmm2]
      simp only [exc_bind_ok]
      rfl
    obtain ⟨m2, hmi2⟩ := mappingInit_of_nodup m.resid [] [] true comps2 [] []
      (.boolD true) (by rw [hvn2]; exact hnd)
    obtain ⟨hres2, hpre2, hsuf2, habs2, hcomps2, hit2, hpos2, hvd2, hfmt2, hnd2⟩ :=
      mappingInit_ok _ _ _ _ _ _ _ _ _ _ hmi2
    refine ⟨m2, ⟨hempty, hpl, ([], [], true, comps2, [], []), true, hup, hmi2⟩,
      hres2, ?_⟩
    have hsub2 : joinSlash (m2.components.map patSeg) = S := by
      rw [hcomps2, hps2, joinSlash_splitC '/' rfl]
    have hcond2 : (m2.isterminal.truthy &&
        !((([] : Str) ++ '/' :: joinSlash (m2.components.map patSeg)).getLast? =
          some '/')) = true := by
      rw [hit2, hsub2]
      rw [show (([] : Str) ++ '/' :: S).getLast? = some d from by
        rw [List.nil_append, hS, List.getLast?_cons_cons, ← hS]
        exact hlast]
      rw [show decide ((some d : Option Char) = some '/') = false from by simp [hd1]]
      rfl
    have hrw2 := renderWith_eq_cases m2 (joinSlash (m2.components.map patSeg)) []
      none true (by rw [habs2]; rfl) hpre2 hsuf2 hcond2 (by
        rw [hsub2]
        intro hcon
        rw [hS] at hcon
        simp at hcon
        exact hc0ne (hs0 ▸ hcon))
    show m2.renderWith (joinSlash (m2.components.map patSeg)) none = m.renderPattern R
    rw [hrw2, hsub2, hP]
    simp

theorem reload_line_core (m : Mapping) (R : Option Str) (pad : Nat)
    (hroot : wfRootloc R) (hwf : WfSer m) :
    ∃ m2, LineRT (padRight m.resid pad ++ ' ' :: ':' :: ' ' :: m.renderPattern R)
        m.resid (m.renderPattern R) m2 ∧
      m2.resid = m.resid ∧ m2.renderPattern none = m.renderPattern R := by
  obtain ⟨hpre, hsuf, hres, hresch, hcne, hcomps, hnd⟩ := hwf
  obtain ⟨t0, ts, htoks⟩ : ∃ t0 ts, m.components.map patSeg = t0 :: ts := by
    cases hc : m.components with
    | nil => exact absurd hc hcne
    | cons c cs => exact ⟨patSeg c, cs.map patSeg, rfl⟩
  have htokwf : ∀ t ∈ m.components.map patSeg, t ≠ [] ∧ ∀ c ∈ t, patCh c = true := by
    intro t ht
    obtain ⟨c, hcmem, hpc⟩ := List.mem_map.mp ht
    rw [← hpc]
    exact patSeg_wf c (hcomps c hcmem)
  obtain ⟨tl, htl⟩ := getLast?_of_ne_nil (m.components.map patSeg)
    (by rw [htoks]; simp)
  obtain ⟨htlne, htlch⟩ := htokwf tl (getLast?_mem _ _ htl)
  obtain ⟨d, hdl⟩ := getLast?_of_ne_nil tl htlne
  have hd : patCh d = true := htlch d (getLast?_mem _ _ hdl)
  have hJlast : (joinSlash (m.components.map patSeg)).getLast? = some d :=
    getLast?_joinSlash _ tl d htl hdl
  have hJne : joinSlash (m.components.map patSeg) ≠ [] := by
    intro hcon; rw [hcon] at hJlast; cases hJlast
  obtain ⟨j0, J1, hj⟩ : ∃ j0 J1, joinSlash (m.components.map patSeg) = j0 :: J1 := by
    cases hjs : joinSlash (m.components.map patSeg) with
    | nil => exact absurd hjs hJne
    | cons a r => exact ⟨a, r, rfl⟩
  have hj0 : patCh j0 = true := by
    rcases mem_joinSlash j0 _ (by rw [hj]; simp) with h | ⟨s, hs, hcs⟩
    · subst h
      exfalso
      obtain ⟨t', ht'⟩ := hjoin_cons t0 ts
      rw [htoks, ht'] at hj
      obtain ⟨h0ne, h0ch⟩ := htokwf t0 (by rw [htoks]; simp)
      obtain ⟨x0, xs, hx⟩ : ∃ x0 xs, t0 = x0 :: xs := by
        cases t0 with
        | nil => exact absurd rfl h0ne
        | cons a r => exact ⟨a, r, rfl⟩
      rw [hx] at hj
      have hxj : x0 = '/' := by
        have := hj
        simp only [List.cons_append, List.cons.injEq] at this
        exact this.1
      exact absurd (patCh_safe x0 (h0ch x0 (by rw [hx]; simp))).1 (by simp [hxj])
    · exact (htokwf s hs).2 j0 hcs
  have hJmem : ∀ c ∈ joinSlash (m.components.map patSeg), c = '/' ∨ patCh c = true := by
    intro c hcm
    rcases mem_joinSlash c _ hcm with h | ⟨s, hs, hcs⟩
    · left; exact h
    · right; exact (htokwf s hs).2 c hcs
  have hcondJ : ∀ first : Str,
      (first ++ '/' :: joinSlash (m.components.map patSeg)).getLast? = some d := by
    intro first
    rw [List.getLast?_append, hj, List.getLast?_cons_cons, ← hj, hJlast]
    rfl
  have hbcond : ∀ first : Str, (m.isterminal.truthy &&
      !((first ++ '/' :: joinSlash (m.components.map patSeg)).getLast? = some '/')) =
      m.isterminal.truthy := by
    intro first
    rw [hcondJ first]
    rw [show decide ((some d : Option Char) = some '/') = false from by
      simp [(patCh_safe d hd).1]]
    rw [Bool.not_false, Bool.and_true]
  have hsplitJ : splitC '/' (joinSlash (m.components.map patSeg)) =
      m.components.map patSeg :=
    splitC_joinSlash _ (by rw [htoks]; simp)
      (fun t ht c hc => (patCh_safe c ((htokwf t ht).2 c hc)).1)
  obtain ⟨comps2, hmap, hps, hvn⟩ := reparse_comps (m.renderPattern R) m.components hcomps
  have hfirstnil : m.absolute = true ∨ (m.absolute = false ∧ R = none) ∨
      (m.absolute = false ∧ ∃ r, R = some r) := by
    cases habs : m.absolute with
    | true => exact Or.inl rfl
    | false =>
      cases R with
      | none => exact Or.inr (Or.inl ⟨rfl, rfl⟩)
      | some r => exact Or.inr (Or.inr ⟨rfl, r, rfl⟩)
  have caseA : (if m.absolute then [] else R.getD ([] : Str)) = [] →
      ∃ m2, LineRT (padRight m.resid pad ++ ' ' :: ':' :: ' ' :: m.renderPattern R)
        m.resid (m.renderPattern R) m2 ∧
      m2.resid = m.resid ∧ m2.renderPattern none = m.renderPattern R := by
    intro hfirst0
    have htk : ((([] : Str) ++ '/' :: joinSlash (m.components.map patSeg)) ++
        (if m.isterminal.truthy then ['/'] else [])).take 2 ≠ ['/', '/'] := by
      rw [List.nil_append, hj]
      simp only [List.cons_append, List.take_succ_cons, List.take_zero]
      intro hcon
      simp only [List.cons.injEq, and_true] at hcon
      exact absurd (patCh_safe j0 hj0).1 (by simp [hcon.2])
    have hrw := renderWith_eq_cases m (joinSlash (m.components.map patSeg)) [] R
      m.isterminal.truthy hfirst0 hpre hsuf (hbcond []) htk
    refine reload_aux m R pad (joinSlash (m.components.map patSeg)) d hres hresch
      ?_ hJlast hd ⟨j0, by rw [hj]; rfl, (patCh_safe j0 hj0).1⟩ ?_ ?_ hnd
    · show m.renderWith (joinSlash (m.components.map patSeg)) R = _
      rw [hrw, List.nil_append]
    · intro c hcm
      rcases hJmem c hcm with h | h
      · subst h; exact ⟨by decide, by decide⟩
      · exact ⟨(patCh_safe c h).2.1, (patCh_safe c h).2.2.1⟩
    · exact ⟨comps2, by rw [hsplitJ]; exact hmap, by rw [hsplitJ]; exact hps, hvn⟩
  rcases hfirstnil with habs | ⟨habs, hRn⟩ | ⟨habs, r, hRs⟩
  · exact caseA (by rw [habs]; rfl)
  · exact caseA (by rw [habs, hRn]; rfl)
  · subst hRs
    obtain ⟨c, rest, hr, hlitc, hrest⟩ := hroot
    have hfirstB : (if m.absolute then [] else (some r).getD ([] : Str)) =
        '/' :: c :: rest := by
      rw [habs]
      simpa using hr
    have hrootch : ∀ ch ∈ c :: rest, litCh ch = true ∨ ch = '/' := by
      intro ch hch
      rcases List.mem_cons.mp hch with h2 | h2
      · subst h2; exact Or.inl hlitc
      · rcases hrest ch h2 with h3 | h3
        · exact Or.inl h3
        · exact Or.inr h3
    have htk : ((('/' :: c :: rest) ++ '/' :: joinSlash (m.components.map patSeg)) ++
        (if m.isterminal.truthy then ['/'] else [])).take 2 ≠ ['/', '/'] := by
      simp only [List.cons_append, List.take_succ_cons, List.take_zero]
      intro hcon
      simp only [List.cons.injEq, and_true] at hcon
      exact absurd (litCh_safe c hlitc).1 (by simp [hcon.2])
    have hrw := renderWith_eq_cases m (joinSlash (m.components.map patSeg))
      ('/' :: c :: rest) (some r) m.isterminal.truthy hfirstB hpre hsuf
      (hbcond ('/' :: c :: rest)) htk
    have hlitroot : ∀ t ∈ splitC '/' (c :: rest), ∀ ch ∈ t, litCh ch = true := by
      intro t ht ch hch
      obtain ⟨hin, hneq⟩ := mem_splitC '/' (c :: rest) t ht ch hch
      rcases hrootch ch hin with h2 | h2
      · exact h2
      · exact absurd h2 hneq
    obtain ⟨root2, hr2map, hr2ps, hr2vn⟩ :=
      reparse_lit_toks (m.renderPattern (some r)) (splitC '/' (c :: rest)) hlitroot
    refine reload_aux m (some r) pad
      ((c :: rest) ++ '/' :: joinSlash (m.components.map patSeg)) d hres hresch
      ?_ ?_ hd ⟨c, rfl, (litCh_safe c hlitc).1⟩ ?_ ?_ hnd
    · show m.renderWith (joinSlash (m.components.map patSeg)) (some r) = _
      rw [hrw]
      simp
    · rw [List.getLast?_append, hj, List.getLast?_cons_cons, ← hj, hJlast]
      rfl
    · intro ch hch
      rcases List.mem_append.mp hch with h2 | h2
      · rcases hrootch ch h2 with h3 | h3
        · exact ⟨(litCh_safe ch h3).2.1, (litCh_safe ch h3).2.2⟩
        · subst h3; exact ⟨by decide, by decide⟩
      · rcases List.mem_cons.mp h2 with h3 | h3
        · subst h3; exact ⟨by decide, by decide⟩
        · rcases hJmem ch h3 with h4 | h4
          · subst h4; exact ⟨by decide, by decide⟩
          · exact ⟨(patCh_safe ch h4).2.1, (patCh_safe ch h4).2.2.1⟩
    · refine ⟨root2 ++ comps2, ?_, ?_, ?_⟩
      · rw [splitC_append, hsplitJ, List.mapM_append, hr2map]
        simp only [exc_bind_ok]
        rw [hmap]
        simp only [exc_bind_ok]
        rfl
      · rw [List.map_append, hr2ps, hps, splitC_append, hsplitJ]
      · rw [varNames_append, hr2vn, hvn]
        rfl

theorem forall2_of_mem_exists {α β : Type} (Q : α → β → Prop) :
    ∀ (l : List α), (∀ a ∈ l, ∃ b, Q a b) → ∃ l2, List.Forall₂ Q l l2 := by
  intro l
  induction l with
  | nil => intro _; exact ⟨[], List.Forall₂.nil⟩
  | cons a as ih =>
    intro h
    obtain ⟨b, hb⟩ := h a (by simp)
    obtain ⟨l2, hl2⟩ := ih (fun x hx => h x (by simp [hx]))
    exact ⟨b :: l2, List.Forall₂.cons hb hl2⟩

theorem forall2_map_eq {α β γ : Type} (f1 : α → γ) (f2 : β → γ) (Q : α → β → Prop)
    (h : ∀ a b2, Q a b2 → f2 b2 = f1 a) :
    ∀ {l1 : List α} {l2 : List β}, List.Forall₂ Q l1 l2 → l2.map f2 = l1.map f1 := by
  intro l1 l2 hf
  induction hf with
  | nil => rfl
  | cons hR hrest ih => simp only [List.map_cons, ih, h _ _ hR]

theorem forall2_left_mem {α β : Type} {Q : α → β → Prop} :
    ∀ {l1 : List α} {l2 : List β}, List.Forall₂ Q l1 l2 →
      ∀ a ∈ l1, ∃ b ∈ l2, Q a b := by
  intro l1 l2 h
  induction h with
  | nil => intro a ha; cases ha
  | cons hR hrest ih =>
    intro a ha
    rcases List.mem_cons.mp ha with h2 | h2
    · subst h2; exact ⟨_, by simp, hR⟩
    · obtain ⟨b, hb, hq⟩ := ih a h2
      exact ⟨b, by simp [hb], hq⟩

theorem forall2_map_left {α β γ : Type} (f : α → γ) (Q : γ → β → Prop) :
    ∀ {l : List α} {l2 : List β}, List.Forall₂ (fun a b2 => Q (f a) b2) l l2 →
      List.Forall₂ Q (l.map f) l2 := by
  intro l l2 h
  induction h with
  | nil => exact List.Forall₂.nil
  | cons hR hrest ih => exact List.Forall₂.cons hR ih

theorem alookup_some_mem {β : Type} (k : Str) :
    ∀ (l : List (Str × β)) (x : β), alookup k l = some x → (k, x) ∈ l := by
  intro l
  induction l with
  | nil => intro x h; cases h
  | cons p rest ih =>
    obtain ⟨k2, v⟩ := p
    intro x h
    simp only [alookup] at h
    by_cases hp : k2 = k
    · rw [if_pos hp] at h
      cases h
      subst hp
      exact List.mem_cons_self _ _
    · rw [if_neg hp] at h
      exact List.mem_cons_of_mem _ (ih x h)

theorem load_fold : ∀ (lines : List Str) (specs : List Mapping) (u0 : UrlMapperS),
    List.Forall₂ (fun line m2 => ∃ pat, LineRT line m2.resid pat m2) lines specs →
    (∀ m2 ∈ specs, alookup m2.resid u0.mappings = none) →
    (specs.map Mapping.resid).Nodup →
    lines.foldlM loadStep u0 =
      .ok ⟨u0.rootloc, u0.mappings ++ specs.map (fun m2 => (m2.resid, m2))⟩ := by
  intro lines specs u0 hf
  induction hf generalizing u0 with
  | nil =>
    intro _ _
    simp [exc_pure]
  | cons hR hrest ih =>
    rename_i line m2 lines2 specs2
    intro hnone hnd
    obtain ⟨pat, hempty, hpl, U, ist, hup, hmi⟩ := hR
    rw [List.foldlM_cons]
    have hstep : loadStep u0 line = .ok ⟨u0.rootloc, u0.mappings ++ [(m2.resid, m2)]⟩ := by
      simp only [loadStep, hempty, Bool.false_eq_true, if_false, hpl, hup,
        exc_bind_ok, hmi]
      simp only [addMapping, hnone m2 (by simp)]
    rw [hstep]
    simp only [exc_bind_ok]
    rw [ih ⟨u0.rootloc, u0.mappings ++ [(m2.resid, m2)]⟩ ?_ ?_]
    · simp [List.append_assoc]
    · intro m3 hm3
      show alookup m3.resid (u0.mappings ++ [(m2.resid, m2)]) = none
      rw [alookup_append_left m3.resid u0.mappings _ (hnone m3 (by simp [hm3]))]
      have hne : ¬(m2.resid = m3.resid) := by
        intro hcon
        have hmem3 : m3.resid ∈ specs2.map Mapping.resid :=
          List.mem_map.mpr ⟨m3, hm3, rfl⟩
        rw [← hcon] at hmem3
        exact (List.nodup_cons.mp (by simpa using hnd)).1 hmem3
      simp [alookup, hne]
    · exact (List.nodup_cons.mp (by simpa using hnd)).2

/-- **C5**: serialize a mapping table with `render()` and reload the resulting
lines with `load()`; for every resource-id of the original table the reloaded
table produces exactly the same `mapurl_pattern` output.  The hypotheses
restrict to serializable tables: a well-formed root location, keys matching
the stored resource-ids, no duplicate ids, and mappings whose components fit
the `compre` classes that `load` parses back. -/
theorem render_load_pattern_roundtrip (u : UrlMapperS) (b : Bool)
    (hroot : wfRootloc u.rootloc)
    (hkeys : ∀ p ∈ u.mappings, (Prod.snd p).resid = Prod.fst p)
    (hnd : (u.mappings.map Prod.fst).Nodup)
    (hwf : ∀ p ∈ u.mappings, WfSer (Prod.snd p)) :
    ∃ u2, load (renderLines u b) = .ok u2 ∧
      ∀ rid m, alookup rid u.mappings = some m →
        mapurlPattern u2 rid = mapurlPattern u rid := by
  obtain ⟨sorted, hrl, hperm⟩ : ∃ s : List Mapping, renderLines u b = s.map (fun m =>
      padRight m.resid (((u.mappings.map Prod.snd).map
        (fun m => m.resid.length)).foldr max 0) ++ ' ' :: ':' :: ' ' ::
        m.renderPattern u.rootloc) ∧ s.Perm (u.mappings.map Prod.snd) :=
    ⟨_, rfl, List.mergeSort_perm _ _⟩
  have hwfs : ∀ m ∈ sorted, WfSer m := by
    intro m hm
    obtain ⟨p, hp, hpe⟩ := List.mem_map.mp (hperm.mem_iff.mp hm)
    rw [← hpe]
    exact hwf p hp
  obtain ⟨specs, hF2⟩ := forall2_of_mem_exists
    (fun m m2 => LineRT (padRight m.resid (((u.mappings.map Prod.snd).map
        (fun m => m.resid.length)).foldr max 0) ++ ' ' :: ':' :: ' ' ::
        m.renderPattern u.rootloc) m.resid (m.renderPattern u.rootloc) m2 ∧
      m2.resid = m.resid ∧ m2.renderPattern none = m.renderPattern u.rootloc)
    sorted
    (fun m hm => reload_line_core m u.rootloc _ hroot (hwfs m hm))
  have hmapres : specs.map Mapping.resid = sorted.map Mapping.resid :=
    forall2_map_eq Mapping.resid Mapping.resid _ (fun a b2 hq => hq.2.1) hF2
  have hsortedres : (sorted.map Mapping.resid).Perm (u.mappings.map Prod.fst) := by
    have h1 : (u.mappings.map Prod.snd).map Mapping.resid = u.mappings.map Prod.fst := by
      rw [List.map_map]
      exact List.map_congr_left (fun p hp => hkeys p hp)
    exact h1 ▸ (hperm.map Mapping.resid)
  have hndspecs : (specs.map Mapping.resid).Nodup := by
    rw [hmapres]
    exact (hsortedres.nodup_iff).mpr hnd
  have hF2L : List.Forall₂ (fun line m2 => ∃ pat, LineRT line m2.resid pat m2)
      (renderLines u b) specs := by
    rw [hrl]
    refine forall2_map_left _ _ (hF2.imp ?_)
    intro a b2 hq
    exact ⟨a.renderPattern u.rootloc, by rw [hq.2.1]; exact hq.1⟩
  have hload := load_fold (renderLines u b) specs ⟨none, []⟩ hF2L
    (fun m2 _ => rfl) hndspecs
  refine ⟨⟨none, [] ++ specs.map (fun m2 => (m2.resid, m2))⟩, hload, ?_⟩
  intro rid m hm
  have hpm : (rid, m) ∈ u.mappings := alookup_some_mem rid u.mappings m hm
  have hmres : m.resid = rid := hkeys (rid, m) hpm
  have hmem2 : m ∈ sorted := hperm.mem_iff.mpr (List.mem_map.mpr ⟨(rid, m), hpm, rfl⟩)
  obtain ⟨m2, hm2mem, hq⟩ := forall2_left_mem hF2 m hmem2
  have hm2res : m2.resid = rid := by rw [hq.2.1, hmres]
  have halk2 : alookup rid (specs.map (fun m2 => (m2.resid, m2))) = some m2 := by
    refine alookup_of_mem_nodup _ ?_ rid m2 ?_
    · rw [show (specs.map (fun m2 => (m2.resid, m2))).map Prod.fst =
        specs.map Mapping.resid from by rw [List.map_map]; rfl]
      exact hndspecs
    · rw [← hm2res]
      exact List.mem_map.mpr ⟨m2, hm2mem, rfl⟩
  have h1 : mapurlPattern ⟨none, [] ++ specs.map (fun m2 => (m2.resid, m2))⟩ rid =
      .ok (m2.renderPattern none) := by
    simp only [mapurlPattern, getMapping]
    rw [show alookup rid ((⟨none, [] ++ specs.map (fun m2 => (m2.resid, m2))⟩ :
        UrlMapperS).mappings) = some m2 from by simpa using halk2]
    rfl
  have h2 : mapurlPattern u rid = .ok (m.renderPattern u.rootloc) := by
    simp only [mapurlPattern, getMapping, hm]
    rfl
  rw [h1, h2, hq.2.2]

/-- A serializable table entry: `/users/(uid%08d)` under root `/demo`. -/
def sMapping : Mapping :=
  { pre := ([], []), suf := ([], []), absolute := false,
    components := [.fixed "users".toList, .var "uid".toList (some "08d".toList)],
    resid := "user".toList, isterminal := .boolD false, optparams := [],
    urltmpl := "users/%(uid)08d".toList,
    urltmplUntyped := "users/%(uid)s".toList,
    positional := ["uid".toList],
    vardict := [("uid".toList, none)],
    formats := [("uid".toList, some "08d".toList)] }

/-- The one-mapping table for the serialization witness. -/
def sU : UrlMapperS := ⟨some "/demo".toList, [("user".toList, sMapping)]⟩

/-- The single line `render()` produces for `sU`. -/
def sLine : Str := "user : /demo/users/(uid%08d)".toList

/-- The mapping `load()` compiles back from `sLine` (the root-location prefix
becomes a fixed component and the mapping becomes absolute). -/
def sMapping2 : Mapping :=
  { pre := ([], []), suf := ([], []), absolute := true,
    components := [.fixed "demo".toList, .fixed "users".toList,
      .var "uid".toList (some "08d".toList)],
    resid := "user".toList, isterminal := .boolD false, optparams := [],
    urltmpl := "demo/users/%(uid)08d".toList,
    urltmplUntyped := "demo/users/%(uid)s".toList,
    positional := ["uid".toList],
    vardict := [("uid".toList, none)],
    formats := [("uid".toList, some "08d".toList)] }

/-- The reloaded table. -/
def sU2 : UrlMapperS := ⟨none, [("user".toList, sMapping2)]⟩

theorem render_load_pattern_roundtrip_witness :
    renderLines sU true = [sLine] ∧
    load (renderLines sU true) = .ok sU2 ∧
    mapurlPattern sU2 "user".toList = .ok "/demo/users/(uid%08d)".toList ∧
    mapurlPattern sU "user".toList = .ok "/demo/users/(uid%08d)".toList := by
  have hrlv : renderLines sU true = [sLine] := by
    show (([sMapping] : List Mapping).mergeSort
      (fun a b2 => strLe (if true then a.urltmpl else a.resid)
        (if true then b2.urltmpl else b2.resid))).map
      (fun m => padRight m.resid 4 ++ ' ' :: ':' :: ' ' ::
        m.renderPattern (some "/demo".toList)) = [sLine]
    rw [List.mergeSort_singleton]
    rfl
  have hrootW : wfRootloc sU.rootloc :=
    ⟨'d', "emo".toList, rfl, by decide, by decide⟩
  have hkeysW : ∀ p ∈ sU.mappings, (Prod.snd p).resid = Prod.fst p := by
    intro p hp
    have hps : p = ("user".toList, sMapping) := by simpa [sU] using hp
    subst hps
    rfl
  have hndW : (sU.mappings.map Prod.fst).Nodup := by simp [sU]
  have hwfW : ∀ p ∈ sU.mappings, WfSer (Prod.snd p) := by
    intro p hp
    have hps : p = ("user".toList, sMapping) := by simpa [sU] using hp
    subst hps
    refine ⟨rfl, rfl, by decide, by decide, by decide, ?_, by decide⟩
    intro c hc
    rcases List.mem_cons.mp hc with h | h
    · subst h
      exact ⟨by decide, by decide⟩
    · have h2 : c = .var "uid".toList (some "08d".toList) := by simpa using h
      subst h2
      exact ⟨by decide, Or.inr ⟨"08d".toList, rfl, by decide⟩⟩
  obtain ⟨u2, hload, hpat⟩ := render_load_pattern_roundtrip sU true
    hrootW hkeysW hndW hwfW
  have hload2 : load [sLine] = .ok u2 := by
    rw [← hrlv]
    exact hload
  have hu2 : u2 = sU2 := by
    have hok : (Except.ok u2 : Except PyErr UrlMapperS) = .ok sU2 := by
      rw [← hload2]
      rfl
    exact Except.ok.inj hok
  subst hu2
  refine ⟨hrlv, hload, ?_, rfl⟩
  have hp2 := hpat "user".toList sMapping rfl
  rw [hp2]
  rfl

end Ranvier
